import Mathlib

/-!
Verification of the hierarchical outline editor of the daily-note
application (shared/schema.ts `ListItem`, the `ListEditor` components,
`useHistory.ts`, and the create-from-template branch of server/routes.ts).

The document model is a forest of items; each item has an `id`, a `text`,
an integer `level` and an optional `children` list (`children?: ListItem[]`
in the TypeScript source; an absent field is modelled as `none`, a present
array as `some`).  All editor operations are pure functions from the old
forest to a new forest, mirroring the `onChange(newItems)` discipline of
the source: an operation that never calls `onChange` is modelled as
returning its input unchanged.
-/

namespace DailyFocus

/-- One node of the outline tree, after `ListItem` in shared/schema.ts:
`id : string`, `text : string`, `level : number`, `children?: ListItem[]`. -/
inductive Item : Type where
  | mk (id : String) (text : String) (level : Int) (children : Option (List Item)) : Item

def Item.id : Item → String
  | .mk i _ _ _ => i

def Item.text : Item → String
  | .mk _ t _ _ => t

def Item.level : Item → Int
  | .mk _ _ l _ => l

def Item.children : Item → Option (List Item)
  | .mk _ _ _ c => c

/-- The children list of an item, reading an absent field as the empty list. -/
def Item.childrenD (x : Item) : List Item :=
  x.children.getD []

/-- `arr.splice(i, 1)` on a JavaScript array: remove the element at index
`i`; out-of-range indices leave the array unchanged. -/
def spliceRemove : List α → Nat → List α
  | [], _ => []
  | _ :: xs, 0 => xs
  | x :: xs, n + 1 => x :: spliceRemove xs n

/-- `arr.splice(i, 0, v)` on a JavaScript array: insert `v` before index
`i`; an index past the end appends `v`. -/
def spliceInsert (v : α) : List α → Nat → List α
  | xs, 0 => v :: xs
  | [], _ + 1 => [v]
  | x :: xs, n + 1 => x :: spliceInsert v xs n

/-- Replace the element at index `i` by `f` of it; out-of-range indices
leave the list unchanged. -/
def modifyNth (f : α → α) : List α → Nat → List α
  | [], _ => []
  | x :: xs, 0 => f x :: xs
  | x :: xs, n + 1 => x :: modifyNth f xs n

/-- The node rebuild shared by every path-descent operation of the source:
apply `g` to the children array when it is present, keep the node otherwise
(the source mutates `current.children` in place while walking a path). -/
def childApply (g : List Item → List Item) : Item → Item
  | .mk idv t l none => .mk idv t l none
  | .mk idv t l (some cs) => .mk idv t l (some (g cs))

namespace Editor

/-! Pure translations of the tree-mutation functions of the main
`ListEditor` component (client/src/components/ListEditor.tsx). -/

mutual

/-- `cloneItems` of the source on a single item: copy the node by object
spread (which keeps `id`, `text` and `level`) and recursively clone the
children when they are present. -/
def cloneItem : Item → Item
  | .mk i t l none => .mk i t l none
  | .mk i t l (some cs) => .mk i t l (some (cloneItems cs))

/-- `cloneItems(itemsList)` of the source: structural deep copy of a forest;
every field, the `id` included, is carried over unchanged. -/
def cloneItems : List Item → List Item
  | [] => []
  | x :: xs => cloneItem x :: cloneItems xs

end

mutual

/-- Depth-first pre-order id sequence of one item and its subtree,
as produced for this node by `getVisualOrderItems`. -/
def visualIdsItem : Item → List String
  | .mk i _ _ none => [i]
  | .mk i _ _ (some cs) => i :: visualIdsForest cs

/-- `getVisualOrderItems(itemsList)` of the source: the ids of the forest
in depth-first pre-order (each item before its children, children before
the next sibling). -/
def visualIdsForest : List Item → List String
  | [] => []
  | x :: xs => visualIdsItem x ++ visualIdsForest xs

end

mutual

/-- Pre-order listing of all items of a subtree (the node itself first). -/
def flattenItem : Item → List Item
  | .mk i t l none => [.mk i t l none]
  | .mk i t l (some cs) => .mk i t l (some cs) :: flattenForest cs

/-- Pre-order listing of all items of a forest. -/
def flattenForest : List Item → List Item
  | [] => []
  | x :: xs => flattenItem x ++ flattenForest xs

end

mutual

/-- `findItemPath` of the source restricted to one item at index `i` of its
owning array: the path (list of child indices) to the first node whose id
is `tid`, or `none`.  The source only descends into `children` when the
array is present and non-empty. -/
def findPathItem (tid : String) : Item → Nat → Option (List Nat)
  | .mk i _ _ none, idx => if i = tid then some [idx] else none
  | .mk i _ _ (some cs), idx =>
    if i = tid then some [idx]
    else if cs.length > 0 then (findPathForest tid cs 0).map (fun p => idx :: p)
    else none

/-- `findItemPath(itemsList, targetId)` of the source, with `n` the index
of the head of `itemsList` in its owning array. -/
def findPathForest (tid : String) : List Item → Nat → Option (List Nat)
  | [], _ => none
  | x :: xs, n =>
    match findPathItem tid x n with
    | some p => some p
    | none => findPathForest tid xs (n + 1)

end

/-- `findItemPath(items, targetId)` of the source: depth-first search for
the first item with the given id, returning the index path from the root. -/
def findItemPath (items : List Item) (tid : String) : Option (List Nat) :=
  findPathForest tid items 0

/-- The `item` field of `getItemAndParentByPath(items, path)` of the
source: follow the index path, stepping through `children` at each level,
and return the addressed item. -/
def getAtPath : List Item → List Nat → Option Item
  | _, [] => none
  | ts, [i] => ts[i]?
  | ts, i :: j :: is =>
    match ts[i]? with
    | some x =>
      match x.children with
      | some cs => getAtPath cs (j :: is)
      | none => none
    | none => none

/-- The `parentArray` field of `getItemAndParentByPath` for the path that
is `p` with its last index removed: the owning array addressed by a path
of arrays (the root array for `[]`). -/
def arrayAtPath : List Item → List Nat → Option (List Item)
  | ts, [] => some ts
  | ts, i :: is =>
    match ts[i]? with
    | some x =>
      match x.children with
      | some cs => arrayAtPath cs is
      | none => none
    | none => none

/-- The partial updates passed to `updateItem(id, updates)`: the call sites
of the source only ever set `text`, `level`, or both. -/
structure ItemUpdates where
  textU : Option String := none
  levelU : Option Int := none

/-- `{ ...item, ...updates }`: object spread of an update record over an
item; fields absent from the update keep the item's value, `children` is
never in an update record so it is always kept. -/
def applyUpdates (u : ItemUpdates) : Item → Item
  | .mk i t l c => .mk i (u.textU.getD t) (u.levelU.getD l) c

mutual

/-- One step of `updateRecursive` inside `updateItem` on a single item:
replace the item when the id matches, otherwise rebuild it around the
recursively updated children. -/
def updateItemOne (tid : String) (u : ItemUpdates) : Item → Item
  | .mk i t l none => if i = tid then applyUpdates u (.mk i t l none) else .mk i t l none
  | .mk i t l (some cs) =>
    if i = tid then applyUpdates u (.mk i t l (some cs))
    else .mk i t l (some (updateItemForest tid u cs))

/-- `updateItem(id, updates)` of the source: map over the forest, replacing
every item whose id matches by the spread-updated item (a matched item's
children are not searched further, matching `items.map` with the early
`return`). -/
def updateItemForest (tid : String) (u : ItemUpdates) : List Item → List Item
  | [] => []
  | x :: xs => updateItemOne tid u x :: updateItemForest tid u xs

end

/-- `updateItem(id, updates)` as handed to `onChange`. -/
def updateItem (items : List Item) (tid : String) (u : ItemUpdates) : List Item :=
  updateItemForest tid u items

mutual

/-- `deleteRecursive` inside `deleteItem` on one item: `none` when the item
itself matches (it is dropped together with its whole subtree), otherwise
the item with its children filtered recursively. -/
def deleteItemOne (tid : String) : Item → Option Item
  | .mk i t l none => if i = tid then none else some (.mk i t l none)
  | .mk i t l (some cs) =>
    if i = tid then none else some (.mk i t l (some (deleteItemForest tid cs)))

/-- `deleteItem(id)` of the source: remove every item whose id matches,
subtrees included, from the whole forest. -/
def deleteItemForest (tid : String) : List Item → List Item
  | [] => []
  | x :: xs =>
    match deleteItemOne tid x with
    | some y => y :: deleteItemForest tid xs
    | none => deleteItemForest tid xs

end

/-- `deleteItem(id)` as handed to `onChange`. -/
def deleteItem (items : List Item) (tid : String) : List Item :=
  deleteItemForest tid items

mutual

/-- `addRecursive` inside `addItemAfter` on one item: rebuild the item
around its recursively processed children. -/
def addAfterOne (tid : String) (v : Item) : Item → Item
  | .mk i t l none => .mk i t l none
  | .mk i t l (some cs) => .mk i t l (some (addAfterForest tid v cs))

/-- `addItemAfter(id, newItem)` of the source: walk the forest and push
`newItem` immediately after every item whose id matches. -/
def addAfterForest (tid : String) (v : Item) : List Item → List Item
  | [] => []
  | x :: xs =>
    if x.id = tid then addAfterOne tid v x :: v :: addAfterForest tid v xs
    else addAfterOne tid v x :: addAfterForest tid v xs

end

/-- `addItemAfter(id, newItem)` as handed to `onChange`. -/
def addItemAfter (items : List Item) (tid : String) (v : Item) : List Item :=
  addAfterForest tid v items

mutual

/-- One item under `processRecursive` of `updateAndAddAfter(id, updates,
newItem)`: a matched item becomes the spread-updated item (children kept)
followed by `newItem`, and its children are not searched further
(`continue` in the source); any other item is rebuilt around its
recursively processed children. -/
def updAddItem (tid : String) (u : ItemUpdates) (v : Item) : Item → List Item
  | .mk i t l none =>
    if i = tid then [applyUpdates u (.mk i t l none), v] else [.mk i t l none]
  | .mk i t l (some cs) =>
    if i = tid then [applyUpdates u (.mk i t l (some cs)), v]
    else [.mk i t l (some (updAddForest tid u v cs))]

/-- `updateAndAddAfter(id, updates, newItem)` of the source over a forest. -/
def updAddForest (tid : String) (u : ItemUpdates) (v : Item) : List Item → List Item
  | [] => []
  | x :: xs => updAddItem tid u v x ++ updAddForest tid u v xs

end

/-- `updateAndAddAfter(id, updates, newItem)` as handed to `onChange`. -/
def updateAndAddAfter (items : List Item) (tid : String) (u : ItemUpdates)
    (v : Item) : List Item :=
  updAddForest tid u v items

/-- Swap the elements at positions `n` and `n + 1` when both exist
(`[arr[n], arr[n+1]] = [arr[n+1], arr[n]]` at a valid index). -/
def swapAdj : List α → Nat → List α
  | x :: y :: xs, 0 => y :: x :: xs
  | x :: xs, n + 1 => x :: swapAdj xs n
  | xs, _ => xs

/-- `processRecursive(items, currentPath)` shared by `moveItemUp` and
`moveItemDown`: descend along the parent path, rebuilding only the indexed
entry at each level, and apply `g` to the owning array reached at the end. -/
def mapArrayAtPath (g : List Item → List Item) : List Item → List Nat → List Item
  | ts, [] => g ts
  | ts, i :: is =>
    modifyNth (fun x =>
      match x with
      | .mk idv t l none => .mk idv t l none
      | .mk idv t l (some cs) => .mk idv t l (some (mapArrayAtPath g cs is))) ts i

/-- `moveItemUp(id)` of the source: locate the item's path; no change when
it is missing or first in its owning array; otherwise swap it with the
preceding sibling of that array. -/
def moveItemUp (items : List Item) (tid : String) : List Item :=
  match findItemPath items tid with
  | none => items
  | some p =>
    match p.getLast? with
    | none => items
    | some index =>
      if index = 0 then items
      else mapArrayAtPath (fun arr => swapAdj arr (index - 1)) items p.dropLast

/-- `moveItemDown(id)` of the source: locate the item's path and its owning
array; no change when it is missing or last in that array; otherwise swap
it with the following sibling. -/
def moveItemDown (items : List Item) (tid : String) : List Item :=
  match findItemPath items tid with
  | none => items
  | some p =>
    match p.getLast? with
    | none => items
    | some index =>
      match arrayAtPath items p.dropLast with
      | none => items
      | some arr =>
        if index + 1 ≥ arr.length then items
        else mapArrayAtPath (fun a => swapAdj a index) items p.dropLast

/-- `duplicateItem(id)` of the source, with the freshly minted root id
(`item-${Date.now()}` there) taken as the parameter `freshId`: the clone
keeps the original's `text` and `level`, its children are `cloneItems` of
the original's children (so every descendant keeps its id), and it is
inserted immediately after the original. -/
def duplicateItem (items : List Item) (tid : String) (freshId : String) : List Item :=
  match findItemPath items tid with
  | none => items
  | some p =>
    match getAtPath items p with
    | none => items
    | some it =>
      addItemAfter items tid (.mk freshId it.text it.level (it.children.map cloneItems))

/-- The id preceding the first occurrence of `tid` in an id sequence
(`findPreviousItem` of the source, at the level of ids): `none` when `tid`
is absent or first. -/
def prevInOrder : List String → String → Option String
  | [], _ => none
  | x :: xs, tid =>
    if x = tid then none
    else
      match xs with
      | [] => none
      | y :: _ => if y = tid then some x else prevInOrder xs tid

/-- The id following the first occurrence of `tid` in an id sequence
(`findNextItem` of the source, at the level of ids): `none` when `tid` is
absent or last. -/
def nextInOrder : List String → String → Option String
  | [], _ => none
  | x :: xs, tid =>
    if x = tid then xs.head?
    else nextInOrder xs tid

/-- Remove the single node addressed by the path, with its subtree
(`currentParentArray.splice(currentIndex, 1)` of the source). -/
def removeAtPath : List Item → List Nat → List Item
  | ts, [] => ts
  | ts, [i] => spliceRemove ts i
  | ts, i :: j :: is =>
    modifyNth (fun x =>
      match x with
      | .mk idv t l none => .mk idv t l none
      | .mk idv t l (some cs) => .mk idv t l (some (removeAtPath cs (j :: is)))) ts i

/-- Rewrite the single node addressed by the path by `f` (the in-place
mutation of the node object found by `getItemAndParentByPath`). -/
def updateAtPath (f : Item → Item) : List Item → List Nat → List Item
  | ts, [] => ts
  | ts, [i] => modifyNth f ts i
  | ts, i :: j :: is =>
    modifyNth (fun x =>
      match x with
      | .mk idv t l none => .mk idv t l none
      | .mk idv t l (some cs) => .mk idv t l (some (updateAtPath f cs (j :: is)))) ts i

/-- The mutation applied to the merge target in the Backspace and Delete
merge branches: append the merged-away item's text, and when that item had
a non-empty children array, append those children after the target's
existing ones (creating the array when absent). -/
def mergeInto (txt : String) (ch : Option (List Item)) : Item → Item
  | .mk i t l c =>
    let c2 : Option (List Item) :=
      match ch with
      | some cs => if cs.length > 0 then some (c.getD [] ++ cs) else c
      | none => c
    .mk i (t ++ txt) l c2

/-- The Backspace merge-with-previous branch of `handleKeyDown` as a pure
document operation: find the item before `tid` in visual order, remove the
target node at its path, then append the target's text and children onto
the previous item at its (pre-removal) path.  Unchanged when no previous
item exists or a lookup fails. -/
def mergeWithPrevious (items : List Item) (tid : String) : List Item :=
  match prevInOrder (visualIdsForest items) tid with
  | none => items
  | some prevId =>
    match findItemPath items prevId, findItemPath items tid with
    | some prevPath, some curPath =>
      match getAtPath items prevPath, getAtPath items curPath with
      | some _, some cur =>
        updateAtPath (mergeInto cur.text cur.children) (removeAtPath items curPath) prevPath
      | _, _ => items
    | _, _ => items

/-- The Delete merge-with-next branch of `handleKeyDown` as a pure document
operation: find the item after `tid` in visual order, remove that next node
at its path, then append its text and children onto the target. -/
def mergeWithNext (items : List Item) (tid : String) : List Item :=
  match nextInOrder (visualIdsForest items) tid with
  | none => items
  | some nextId =>
    match findItemPath items tid, findItemPath items nextId with
    | some curPath, some nextPath =>
      match getAtPath items curPath, getAtPath items nextPath with
      | some _, some nxt =>
        updateAtPath (mergeInto nxt.text nxt.children) (removeAtPath items nextPath) curPath
      | _, _ => items
    | _, _ => items

/-- The Enter branch of `handleKeyDown` as a pure document operation: with
the caret after `caret` characters of the target's text, the target's text
becomes the part before the caret and a new item with the part after the
caret and the target's level is added right after it
(`updateAndAddAfter(item.id, { text: textBeforeCursor }, newItem)`). -/
def enterSplit (items : List Item) (tid : String) (caret : Nat) (newId : String) : List Item :=
  match findItemPath items tid with
  | none => items
  | some p =>
    match getAtPath items p with
    | none => items
    | some it =>
      updateAndAddAfter items tid ⟨some (it.text.take caret), none⟩
        (.mk newId (it.text.drop caret) it.level none)

/-- The Tab branch of `handleKeyDown`: indent by a plain level bump,
guarded by `item.level < 5` (`updateItem(item.id, { level: item.level + 1 })`). -/
def tabIndent (items : List Item) (tid : String) : List Item :=
  match findItemPath items tid with
  | none => items
  | some p =>
    match getAtPath items p with
    | none => items
    | some it =>
      if it.level < 5 then updateItem items tid ⟨none, some (it.level + 1)⟩ else items

/-- The Shift+Tab branch of `handleKeyDown`: outdent by a plain level
decrement, guarded by `item.level > 0`. -/
def shiftTabOutdent (items : List Item) (tid : String) : List Item :=
  match findItemPath items tid with
  | none => items
  | some p =>
    match getAtPath items p with
    | none => items
    | some it =>
      if 0 < it.level then updateItem items tid ⟨none, some (it.level - 1)⟩ else items

/-- The decision of `handleBlur(item)` to schedule the deferred deletion of
an empty item: only when the text is empty or whitespace, the item is not
the document's only item, and it has no children. -/
def blurSchedulesDeletion (items : List Item) (x : Item) : Bool :=
  if x.text = "" ∨ x.text.trim = "" then
    if items.length = 1 then false
    else if x.childrenD.length > 0 then false
    else true
  else false

end Editor

namespace Editor2

open Editor

/-! Pure translations of the structural indent/outdent engine of the
sibling `ListEditor` variant (`findItemLocation`, `adjustSubtreeLevels`,
`cleanupEmptyChildren`, `getSubtreeLevelBounds`, `indentItem`,
`outdentItem`). -/

mutual

/-- `adjustSubtreeLevels(item, delta)` on one node: every level in the
subtree is shifted by `delta` and clamped into `[0, 5]`
(`Math.min(5, Math.max(0, node.level + delta))`). -/
def adjustItem (delta : Int) : Item → Item
  | .mk i t l none => .mk i t (min 5 (max 0 (l + delta))) none
  | .mk i t l (some cs) => .mk i t (min 5 (max 0 (l + delta))) (some (adjustForest delta cs))

/-- `adjustSubtreeLevels` over a children array. -/
def adjustForest (delta : Int) : List Item → List Item
  | [] => []
  | x :: xs => adjustItem delta x :: adjustForest delta xs

end

mutual

/-- `cleanupEmptyChildren(node)`: recursively turn an empty-but-present
children array into an absent one. -/
def cleanupItem : Item → Item
  | .mk i t l none => .mk i t l none
  | .mk i t l (some cs) =>
    if cs.isEmpty then .mk i t l none
    else .mk i t l (some (cleanupForest cs))

/-- `cleanupEmptyChildren` over a children array. -/
def cleanupForest : List Item → List Item
  | [] => []
  | x :: xs => cleanupItem x :: cleanupForest xs

end

mutual

/-- `getSubtreeLevelBounds(node)`: the `(min, max)` of all levels in the
subtree. -/
def boundsItem : Item → Int × Int
  | .mk _ _ l none => (l, l)
  | .mk _ _ l (some cs) => boundsAux (l, l) cs

/-- The loop of `getSubtreeLevelBounds` over the children, folding each
child's bounds into the accumulator. -/
def boundsAux : Int × Int → List Item → Int × Int
  | acc, [] => acc
  | acc, x :: xs => boundsAux (min acc.1 (boundsItem x).1, max acc.2 (boundsItem x).2) xs

end

mutual

/-- `findItemLocation(list, id, parent)` on one item at index `idx`: the
index path to the first node with the given id together with its parent
node (`none` at the root level).  The source recurses into any present
children array. -/
def findLocItem (tid : String) (parent : Option Item) : Item → Nat → Option (List Nat × Option Item)
  | .mk i _ _ none, idx =>
    if i = tid then some ([idx], parent) else none
  | .mk i t l (some cs), idx =>
    if i = tid then some ([idx], parent)
    else
      match findLocForest tid (some (.mk i t l (some cs))) cs 0 with
      | some (p, par) => some (idx :: p, par)
      | none => none

/-- `findItemLocation` over a list, with `n` the index of the head. -/
def findLocForest (tid : String) (parent : Option Item) : List Item → Nat → Option (List Nat × Option Item)
  | [], _ => none
  | x :: xs, n =>
    match findLocItem tid parent x n with
    | some r => some r
    | none => findLocForest tid parent xs (n + 1)

end

/-- `findItemLocation(items, id)`: path of the first item with the id,
plus its parent node. -/
def findItemLocation (items : List Item) (tid : String) : Option (List Nat × Option Item) :=
  findLocForest tid none items 0

/-- `previousSibling.children.push(itemToMove)`, creating the array when it
is absent. -/
def pushChild (v : Item) : Item → Item
  | .mk i t l none => .mk i t l (some [v])
  | .mk i t l (some cs) => .mk i t l (some (cs ++ [v]))

/-- `insertionArray.splice(j, 0, v)` on the array addressed by a path of
arrays. -/
def insertAtArrayPath (v : Item) : List Item → List Nat → Nat → List Item
  | ts, [], j => spliceInsert v ts j
  | ts, i :: is, j =>
    modifyNth (fun x =>
      match x with
      | .mk idv t l none => .mk idv t l none
      | .mk idv t l (some cs) => .mk idv t l (some (insertAtArrayPath v cs is j))) ts i

/-- `indentItem(id)` of the structural variant: clone the document, locate
the target; no change when it is missing or first in its owning array, or
when the previous sibling is already at level 5, or when shifting the
subtree by `previousSibling.level + 1 - target.level` would leave `[0, 5]`
(checked through `getSubtreeLevelBounds`).  Otherwise the target is removed
from its array, its subtree levels are shifted, it is appended as the last
child of the previous sibling, and `cleanupEmptyChildren` runs on the
former parent when one exists. -/
def indentItem (items : List Item) (tid : String) : List Item :=
  let cloned := Editor.cloneItems items
  match findItemLocation cloned tid with
  | none => items
  | some (p, parentOpt) =>
    match p.getLast? with
    | none => items
    | some index =>
      if index = 0 then items
      else
        match arrayAtPath cloned p.dropLast with
        | none => items
        | some arr =>
          match arr[index - 1]?, arr[index]? with
          | some prevSibling, some itemToMove =>
            let targetLevel := min (prevSibling.level + 1) 5
            if targetLevel ≤ prevSibling.level then items
            else
              let b := boundsItem itemToMove
              let levelDelta := targetLevel - itemToMove.level
              if 5 < b.2 + levelDelta ∨ b.1 + levelDelta < 0 then items
              else
                let t1 := removeAtPath cloned p
                let moved := if levelDelta = 0 then itemToMove else adjustItem levelDelta itemToMove
                let t2 := updateAtPath (pushChild moved) t1 (p.dropLast ++ [index - 1])
                match parentOpt with
                | none => t2
                | some _ => updateAtPath cleanupItem t2 p.dropLast
          | _, _ => items

/-- `outdentItem(id)` of the structural variant: no change when the target
is missing or has no parent, or when shifting the subtree by
`parent.level - target.level` would leave `[0, 5]`.  Otherwise the target
is removed from the parent's children, inserted into the parent's own
array immediately after the parent, its subtree levels are shifted, and
`cleanupEmptyChildren` runs on the parent. -/
def outdentItem (items : List Item) (tid : String) : List Item :=
  let cloned := Editor.cloneItems items
  match findItemLocation cloned tid with
  | none => items
  | some (_, none) => items
  | some (p, some parent) =>
    match findItemLocation cloned parent.id with
    | none => items
    | some (pp, _) =>
      match getAtPath cloned p, pp.getLast? with
      | some itemToMove, some parentIndex =>
        let levelDelta := parent.level - itemToMove.level
        let b := boundsItem itemToMove
        if 5 < b.2 + levelDelta ∨ b.1 + levelDelta < 0 then items
        else
          let t1 := removeAtPath cloned p
          let t2 := insertAtArrayPath itemToMove t1 pp.dropLast (parentIndex + 1)
          let t3 :=
            if levelDelta = 0 then t2
            else updateAtPath (fun _ => adjustItem levelDelta itemToMove) t2
              (pp.dropLast ++ [parentIndex + 1])
          updateAtPath cleanupItem t3 pp
      | _, _ => items

end Editor2

namespace Persistence

/-! The create-from-template branch of `GET /api/notes/:date` in
server/routes.ts. -/

mutual

/-- `JSON.parse(JSON.stringify(node))` for one `ListItem`: the JSON round
trip rebuilds the object with the same `id`, `text` and `level`; an
`undefined`/absent `children` stays absent, a present array is rebuilt
element by element. -/
def jsonCloneItem : Item → Item
  | .mk i t l none => .mk i t l none
  | .mk i t l (some cs) => .mk i t l (some (jsonCloneForest cs))

/-- `JSON.parse(JSON.stringify(content))` for a `ListItem[]`. -/
def jsonCloneForest : List Item → List Item
  | [] => []
  | x :: xs => jsonCloneItem x :: jsonCloneForest xs

end

/-- The `content` given to `storage.createDailyNote` when a day's note does
not exist yet: `JSON.parse(JSON.stringify(template.content))`. -/
def createNoteContentFromTemplate (templateContent : List Item) : List Item :=
  jsonCloneForest templateContent

end Persistence

namespace History

/-! The undo/redo manager of client/src/hooks/useHistory.ts. -/

/-- The state held by `useHistory`: `past` (bounded stack), `present`,
`future` (stack). -/
structure HistoryState (α : Type) where
  past : List α
  present : α
  future : List α
deriving DecidableEq

/-- `set(newValue)` of `useHistory`, with `cap` the `maxHistorySize`
option (default 100) and `isUndoRedo` the `isUndoRedoRef` flag: unchanged
when the new value is structurally equal to `present`
(`JSON.stringify` comparison) or when an undo/redo is in flight; otherwise
the old `present` is appended to `past` (dropping the oldest entry when the
new stack would exceed `cap`), `present` becomes the new value and `future`
is cleared. -/
def historySet [DecidableEq α] (cap : Nat) (isUndoRedo : Bool)
    (h : HistoryState α) (v : α) : HistoryState α :=
  if v = h.present then h
  else if isUndoRedo then h
  else
    let newPast := h.past ++ [h.present]
    ⟨if cap < newPast.length then newPast.tail else newPast, v, []⟩

/-- `undo()` of `useHistory`: unchanged when `past` is empty; otherwise the
last entry of `past` is popped into `present` and the old `present` is
pushed onto the front of `future`. -/
def historyUndo (h : HistoryState α) : HistoryState α :=
  match h.past.getLast? with
  | none => h
  | some p => ⟨h.past.dropLast, p, h.present :: h.future⟩

/-- `redo()` of `useHistory`: unchanged when `future` is empty; otherwise
the first entry of `future` is shifted into `present` and the old
`present` is appended to `past`. -/
def historyRedo (h : HistoryState α) : HistoryState α :=
  match h.future with
  | [] => h
  | f :: fs => ⟨h.past ++ [h.present], f, fs⟩

/-- `reset(newValue)` of `useHistory`: empty `past` and `future`, `present`
set to the given value. -/
def historyReset (v : α) : HistoryState α :=
  ⟨[], v, []⟩

end History

namespace SpecModel

/-! Specification-side definitions, written from the spec's own words, to
be compared with the source translations (refinement claims C3, C4, C6). -/

mutual

/-- The `splitAt(id, textBefore, textAfter, newId)` contract of spec
§4.1, on one item: the target's text becomes `textBefore` while its
children remain with it, and the new sibling (same level, text
`textAfter`) is inserted immediately after it; every other item keeps its
fields, its children processed recursively. -/
def splitItemSpec (tid tb : String) (v : Item) : Item → List Item
  | .mk i t l none => if i = tid then [.mk i tb l none, v] else [.mk i t l none]
  | .mk i t l (some cs) =>
    if i = tid then [.mk i tb l (some cs), v]
    else [.mk i t l (some (splitForestSpec tid tb v cs))]

/-- The split contract over a forest. -/
def splitForestSpec (tid tb : String) (v : Item) : List Item → List Item
  | [] => []
  | x :: xs => splitItemSpec tid tb v x ++ splitForestSpec tid tb v xs

end

mutual

/-- Rewrite the item with the given id in place by `f` (children are not
searched past a match); the spec-level way of addressing "that item" by
its unique id. -/
def mapByIdItem (f : Item → Item) (tid : String) : Item → Item
  | .mk i t l none => if i = tid then f (.mk i t l none) else .mk i t l none
  | .mk i t l (some cs) =>
    if i = tid then f (.mk i t l (some cs))
    else .mk i t l (some (mapByIdForest f tid cs))

/-- `mapByIdItem` over a forest. -/
def mapByIdForest (f : Item → Item) (tid : String) : List Item → List Item
  | [] => []
  | x :: xs => mapByIdItem f tid x :: mapByIdForest f tid xs

end

mutual

/-- The first item with the given id in a subtree, depth-first. -/
def findByIdItem (tid : String) : Item → Option Item
  | .mk i t l none => if i = tid then some (.mk i t l none) else none
  | .mk i t l (some cs) =>
    if i = tid then some (.mk i t l (some cs)) else findByIdForest tid cs

/-- The first item with the given id in a forest, depth-first. -/
def findByIdForest (tid : String) : List Item → Option Item
  | [] => none
  | x :: xs =>
    match findByIdItem tid x with
    | some r => some r
    | none => findByIdForest tid xs

end

/-- The `mergeWithPrevious(id)` contract of spec §4.1, phrased by id: the
item immediately preceding the target in depth-first visual order receives
the target's text and children appended onto its own, and the target node
is removed; the document is unchanged when no previous item exists. -/
def mergeWithPreviousSpec (items : List Item) (tid : String) : List Item :=
  match Editor.prevInOrder (Editor.visualIdsForest items) tid with
  | none => items
  | some prevId =>
    match findByIdForest tid items with
    | none => items
    | some cur =>
      mapByIdForest (Editor.mergeInto cur.text cur.children) prevId
        (Editor.deleteItemForest tid items)

mutual

/-- The plain level shift of the outdent contract of spec §4.1: every level
in the subtree moves by `delta`, with no clamping (outdent rejects the
operation instead when the shifted levels would leave `[0, 5]`). -/
def shiftItemSpec (delta : Int) : Item → Item
  | .mk i t l none => .mk i t (l + delta) none
  | .mk i t l (some cs) => .mk i t (l + delta) (some (shiftForestSpec delta cs))

/-- The plain level shift over a children array. -/
def shiftForestSpec (delta : Int) : List Item → List Item
  | [] => []
  | x :: xs => shiftItemSpec delta x :: shiftForestSpec delta xs

end

/-- The parent rewrite of the outdent contract of spec §4.1: the child at
index `k` is removed from the parent's children, and when no children
remain the children field becomes absent. -/
def dropChildAt : Item → Nat → Item
  | .mk i t l none, _ => .mk i t l none
  | .mk i t l (some cs), k =>
    let remaining := spliceRemove cs k
    .mk i t l (if remaining.isEmpty then none else some remaining)

/-- The outdent contract of spec §4.1 as a rewrite of the parent's owning
array, for a parent sitting at index `pl` whose child at index `k` is the
target: the target is removed from the parent's children (leaving the
children field absent when none remain), and reinserted, with its subtree
levels shifted by `delta = parent.level - target.level`, immediately after
the parent. -/
def outdentLocalSpec (delta : Int) (target : Item) (k pl : Nat)
    (arr : List Item) : List Item :=
  spliceInsert (shiftItemSpec delta target)
    (modifyNth (fun par => dropChildAt par k) arr pl) (pl + 1)

end SpecModel

/-- Add one to the first coordinate of an index path (the effect on a
path of prepending one sibling in front of the searched array). -/
def headSucc : List Nat → List Nat
  | [] => []
  | h :: t => (h + 1) :: t

/-- Depth-first order on index paths: `pathBefore q p` holds when the
node at `q` is visited strictly before the node at `p` and is not inside
the subtree of `p` — `q` is a proper prefix of `p` (an ancestor) or
branches off to a smaller index. -/
def pathBefore : List Nat → List Nat → Prop
  | [], p => p ≠ []
  | _ :: _, [] => False
  | a :: q, b :: p => a < b ∨ (a = b ∧ pathBefore q p)

/-- The index of the first occurrence of a string in a list. -/
def idxOf? (a : String) : List String → Option Nat
  | [] => none
  | x :: xs => if x = a then some 0 else (idxOf? a xs).map Nat.succ

mutual

/-- The level invariant on one item: its own level lies in `[0, 5]` and
every item of its children does as well. -/
def levelsOkItem : Item → Prop
  | .mk _ _ l none => 0 ≤ l ∧ l ≤ 5
  | .mk _ _ l (some cs) => (0 ≤ l ∧ l ≤ 5) ∧ levelsOkForest cs

/-- The level invariant on a forest: every item of the document, at any
depth, has its level in `[0, 5]`. -/
def levelsOkForest : List Item → Prop
  | [] => True
  | x :: xs => levelsOkItem x ∧ levelsOkForest xs

end

mutual

/-- No node of the subtree carries a present-but-empty children array
(the normal form that `cleanupEmptyChildren` maintains). -/
def noEmptyItem : Item → Prop
  | .mk _ _ _ none => True
  | .mk _ _ _ (some cs) => cs ≠ [] ∧ noEmptyForest cs

/-- No node of the forest, at any depth, carries a present-but-empty
children array. -/
def noEmptyForest : List Item → Prop
  | [] => True
  | x :: xs => noEmptyItem x ∧ noEmptyForest xs

end

/-- One editor mutation, over the operations named by the spec: update
text, split, merge (both directions), indent and outdent (both the plain
level-bump variant and the structural subtree variant), move up/down,
duplicate, and delete. -/
inductive Op : Type where
  | updateText (tid : String) (s : String)
  | splitAt (tid : String) (caret : Nat) (newId : String)
  | mergePrev (tid : String)
  | mergeNext (tid : String)
  | indentTab (tid : String)
  | outdentTab (tid : String)
  | indentStructural (tid : String)
  | outdentStructural (tid : String)
  | moveUp (tid : String)
  | moveDown (tid : String)
  | duplicate (tid : String) (freshId : String)
  | deleteSubtree (tid : String)

/-- Apply one mutation to a document, dispatching to the translated
source operation. -/
def applyOp (items : List Item) : Op → List Item
  | .updateText tid s => Editor.updateItem items tid ⟨some s, none⟩
  | .splitAt tid caret newId => Editor.enterSplit items tid caret newId
  | .mergePrev tid => Editor.mergeWithPrevious items tid
  | .mergeNext tid => Editor.mergeWithNext items tid
  | .indentTab tid => Editor.tabIndent items tid
  | .outdentTab tid => Editor.shiftTabOutdent items tid
  | .indentStructural tid => Editor2.indentItem items tid
  | .outdentStructural tid => Editor2.outdentItem items tid
  | .moveUp tid => Editor.moveItemUp items tid
  | .moveDown tid => Editor.moveItemDown items tid
  | .duplicate tid freshId => Editor.duplicateItem items tid freshId
  | .deleteSubtree tid => Editor.deleteItem items tid

/-! Basic structural lemmas. -/

mutual

theorem cloneItem_eq : ∀ x : Item, Editor.cloneItem x = x
  | .mk _ _ _ none => rfl
  | .mk _ _ _ (some _) => by rw [Editor.cloneItem, cloneItems_eq]

theorem cloneItems_eq : ∀ xs : List Item, Editor.cloneItems xs = xs
  | [] => rfl
  | _ :: _ => by rw [Editor.cloneItems, cloneItem_eq, cloneItems_eq]

end

mutual

theorem jsonCloneItem_eq : ∀ x : Item, Persistence.jsonCloneItem x = x
  | .mk _ _ _ none => rfl
  | .mk _ _ _ (some _) => by rw [Persistence.jsonCloneItem, jsonCloneForest_eq]

theorem jsonCloneForest_eq : ∀ xs : List Item, Persistence.jsonCloneForest xs = xs
  | [] => rfl
  | _ :: _ => by rw [Persistence.jsonCloneForest, jsonCloneItem_eq, jsonCloneForest_eq]

end

/-! Level-invariant preservation kit (for C5). -/

theorem levelsOkForest_nil : levelsOkForest [] := by
  rw [levelsOkForest]
  trivial

theorem levelsOkForest_cons {x : Item} {xs : List Item} :
    levelsOkForest (x :: xs) ↔ levelsOkItem x ∧ levelsOkForest xs := by
  rw [levelsOkForest]

theorem levelsOkForest_append : ∀ xs ys : List Item,
    levelsOkForest (xs ++ ys) ↔ (levelsOkForest xs ∧ levelsOkForest ys) := by
  intro xs ys
  induction xs with
  | nil => simp [levelsOkForest_nil, levelsOkForest]
  | cons x xs ih =>
    rw [List.cons_append, levelsOkForest_cons, levelsOkForest_cons, ih, and_assoc]

theorem levelsOkItem_mk (i t : String) (l : Int) (c : Option (List Item))
    (hl : 0 ≤ l ∧ l ≤ 5) (hc : ∀ cs, c = some cs → levelsOkForest cs) :
    levelsOkItem (.mk i t l c) := by
  cases c with
  | none => rw [levelsOkItem]; exact hl
  | some cs => rw [levelsOkItem]; exact ⟨hl, hc cs rfl⟩

theorem levelsOkItem_destruct : ∀ (i t : String) (l : Int) (c : Option (List Item)),
    levelsOkItem (.mk i t l c) →
    (0 ≤ l ∧ l ≤ 5) ∧ (∀ cs, c = some cs → levelsOkForest cs) := by
  intro i t l c h
  cases c with
  | none =>
    rw [levelsOkItem] at h
    exact ⟨h, fun cs hc => Option.noConfusion hc⟩
  | some cs0 =>
    rw [levelsOkItem] at h
    exact ⟨h.1, fun cs hc => (Option.some.inj hc) ▸ h.2⟩

theorem levelsOkItem_level : ∀ x : Item, levelsOkItem x → 0 ≤ x.level ∧ x.level ≤ 5
  | .mk i t l c, h => (levelsOkItem_destruct i t l c h).1

theorem levelsOkItem_children : ∀ x : Item, levelsOkItem x →
    ∀ cs, x.children = some cs → levelsOkForest cs
  | .mk i t l c, h => (levelsOkItem_destruct i t l c h).2

theorem levelsOk_spliceRemove : ∀ (xs : List Item) (n : Nat),
    levelsOkForest xs → levelsOkForest (spliceRemove xs n)
  | [], _, h => h
  | _ :: _, 0, h => (levelsOkForest_cons.mp h).2
  | x :: xs, n + 1, h => by
    rw [spliceRemove, levelsOkForest_cons]
    rw [levelsOkForest_cons] at h
    exact ⟨h.1, levelsOk_spliceRemove xs n h.2⟩

theorem levelsOk_spliceInsert (v : Item) (hv : levelsOkItem v) : ∀ (xs : List Item) (n : Nat),
    levelsOkForest xs → levelsOkForest (spliceInsert v xs n)
  | xs, 0, h => by
    rw [spliceInsert, levelsOkForest_cons]
    exact ⟨hv, h⟩
  | [], n + 1, _ => by
    rw [spliceInsert, levelsOkForest_cons]
    exact ⟨hv, levelsOkForest_nil⟩
  | x :: xs, n + 1, h => by
    rw [spliceInsert, levelsOkForest_cons]
    rw [levelsOkForest_cons] at h
    exact ⟨h.1, levelsOk_spliceInsert v hv xs n h.2⟩

theorem levelsOk_modifyNth (f : Item → Item)
    (hf : ∀ x, levelsOkItem x → levelsOkItem (f x)) : ∀ (xs : List Item) (n : Nat),
    levelsOkForest xs → levelsOkForest (modifyNth f xs n)
  | [], _, h => h
  | x :: xs, 0, h => by
    rw [modifyNth, levelsOkForest_cons]
    rw [levelsOkForest_cons] at h
    exact ⟨hf x h.1, h.2⟩
  | x :: xs, n + 1, h => by
    rw [modifyNth, levelsOkForest_cons]
    rw [levelsOkForest_cons] at h
    exact ⟨h.1, levelsOk_modifyNth f hf xs n h.2⟩

theorem levelsOk_swapAdj : ∀ (xs : List Item) (n : Nat),
    levelsOkForest xs → levelsOkForest (Editor.swapAdj xs n)
  | x :: y :: xs, 0, h => by
    rw [Editor.swapAdj]
    rw [levelsOkForest_cons, levelsOkForest_cons] at h ⊢
    exact ⟨h.2.1, h.1, h.2.2⟩
  | x :: xs, n + 1, h => by
    rw [Editor.swapAdj, levelsOkForest_cons]
    rw [levelsOkForest_cons] at h
    exact ⟨h.1, levelsOk_swapAdj xs n h.2⟩
  | [], _, h => h
  | [x], 0, h => h

theorem levelsOk_get? : ∀ (ts : List Item) (i : Nat) (x : Item),
    levelsOkForest ts → ts[i]? = some x → levelsOkItem x
  | [], i, x, _, hx => by simp at hx
  | t :: ts, 0, x, h, hx => by
    simp at hx
    exact hx ▸ (levelsOkForest_cons.mp h).1
  | t :: ts, i + 1, x, h, hx => by
    simp at hx
    exact levelsOk_get? ts i x (levelsOkForest_cons.mp h).2 hx

theorem levelsOk_getAtPath : ∀ (p : List Nat) (ts : List Item) (x : Item),
    levelsOkForest ts → Editor.getAtPath ts p = some x → levelsOkItem x
  | [], ts, x, _, hx => by rw [Editor.getAtPath] at hx; exact Option.noConfusion hx
  | [i], ts, x, h, hx => levelsOk_get? ts i x h hx
  | i :: j :: is, ts, x, h, hx => by
    rw [Editor.getAtPath] at hx
    revert hx
    cases hy : ts[i]? with
    | none => intro hx; exact Option.noConfusion hx
    | some y =>
      intro hx
      have hx2 : (match y.children with
          | some cs => Editor.getAtPath cs (j :: is)
          | none => none) = some x := hx
      revert hx2
      cases hcy : y.children with
      | none => intro hx2; exact Option.noConfusion hx2
      | some cs =>
        intro hx2
        exact levelsOk_getAtPath (j :: is) cs x
          (levelsOkItem_children y (levelsOk_get? ts i y h hy) cs hcy) hx2

theorem levelsOk_arrayAtPath : ∀ (p : List Nat) (ts arr : List Item),
    levelsOkForest ts → Editor.arrayAtPath ts p = some arr → levelsOkForest arr
  | [], ts, arr, h, ha => by
    rw [Editor.arrayAtPath] at ha
    exact (Option.some.inj ha) ▸ h
  | i :: is, ts, arr, h, ha => by
    rw [Editor.arrayAtPath] at ha
    revert ha
    cases hy : ts[i]? with
    | none => intro ha; exact Option.noConfusion ha
    | some y =>
      intro ha
      have ha2 : (match y.children with
          | some cs => Editor.arrayAtPath cs is
          | none => none) = some arr := ha
      revert ha2
      cases hcy : y.children with
      | none => intro ha2; exact Option.noConfusion ha2
      | some cs =>
        intro ha2
        exact levelsOk_arrayAtPath is cs arr
          (levelsOkItem_children y (levelsOk_get? ts i y h hy) cs hcy) ha2

theorem levelsOk_removeAtPath : ∀ (p : List Nat) (ts : List Item),
    levelsOkForest ts → levelsOkForest (Editor.removeAtPath ts p)
  | [], ts, h => h
  | [i], ts, h => levelsOk_spliceRemove ts i h
  | i :: j :: is, ts, h => by
    rw [Editor.removeAtPath]
    apply levelsOk_modifyNth _ _ ts i h
    intro x hx
    cases x with
    | mk idv t l c =>
      cases c with
      | none => exact hx
      | some cs =>
        have hd := levelsOkItem_destruct idv t l (some cs) hx
        exact levelsOkItem_mk idv t l _ hd.1
          (fun cs2 hc2 => (Option.some.inj hc2) ▸
            levelsOk_removeAtPath (j :: is) cs (hd.2 cs rfl))

theorem levelsOk_updateAtPath (f : Item → Item)
    (hf : ∀ x, levelsOkItem x → levelsOkItem (f x)) : ∀ (p : List Nat) (ts : List Item),
    levelsOkForest ts → levelsOkForest (Editor.updateAtPath f ts p)
  | [], ts, h => h
  | [i], ts, h => levelsOk_modifyNth f hf ts i h
  | i :: j :: is, ts, h => by
    rw [Editor.updateAtPath]
    apply levelsOk_modifyNth _ _ ts i h
    intro x hx
    cases x with
    | mk idv t l c =>
      cases c with
      | none => exact hx
      | some cs =>
        have hd := levelsOkItem_destruct idv t l (some cs) hx
        exact levelsOkItem_mk idv t l _ hd.1
          (fun cs2 hc2 => (Option.some.inj hc2) ▸
            levelsOk_updateAtPath f hf (j :: is) cs (hd.2 cs rfl))

theorem levelsOk_insertAtArrayPath (v : Item) (hv : levelsOkItem v) :
    ∀ (p : List Nat) (ts : List Item) (j : Nat),
    levelsOkForest ts → levelsOkForest (Editor2.insertAtArrayPath v ts p j)
  | [], ts, j, h => levelsOk_spliceInsert v hv ts j h
  | i :: is, ts, j, h => by
    rw [Editor2.insertAtArrayPath]
    apply levelsOk_modifyNth _ _ ts i h
    intro x hx
    cases x with
    | mk idv t l c =>
      cases c with
      | none => exact hx
      | some cs =>
        have hd := levelsOkItem_destruct idv t l (some cs) hx
        exact levelsOkItem_mk idv t l _ hd.1
          (fun cs2 hc2 => (Option.some.inj hc2) ▸
            levelsOk_insertAtArrayPath v hv is cs j (hd.2 cs rfl))

theorem levelsOk_mapArrayAtPath (g : List Item → List Item)
    (hg : ∀ a, levelsOkForest a → levelsOkForest (g a)) :
    ∀ (p : List Nat) (ts : List Item),
    levelsOkForest ts → levelsOkForest (Editor.mapArrayAtPath g ts p)
  | [], ts, h => hg ts h
  | i :: is, ts, h => by
    rw [Editor.mapArrayAtPath]
    apply levelsOk_modifyNth _ _ ts i h
    intro x hx
    cases x with
    | mk idv t l c =>
      cases c with
      | none => exact hx
      | some cs =>
        have hd := levelsOkItem_destruct idv t l (some cs) hx
        exact levelsOkItem_mk idv t l _ hd.1
          (fun cs2 hc2 => (Option.some.inj hc2) ▸
            levelsOk_mapArrayAtPath g hg is cs (hd.2 cs rfl))

theorem levelsOk_applyUpdates (u : Editor.ItemUpdates)
    (hu : ∀ v, u.levelU = some v → 0 ≤ v ∧ v ≤ 5) :
    ∀ x : Item, levelsOkItem x → levelsOkItem (Editor.applyUpdates u x)
  | .mk i t l c, h => by
    rw [Editor.applyUpdates]
    have hd := levelsOkItem_destruct i t l c h
    apply levelsOkItem_mk _ _ _ _ _ hd.2
    cases hv : u.levelU with
    | none => simpa [hv] using hd.1
    | some v => simpa [hv] using hu v hv

mutual

theorem levelsOk_updateItemOne (tid : String) (u : Editor.ItemUpdates)
    (hu : ∀ v, u.levelU = some v → 0 ≤ v ∧ v ≤ 5) :
    ∀ x : Item, levelsOkItem x → levelsOkItem (Editor.updateItemOne tid u x)
  | .mk i t l none, h => by
    rw [Editor.updateItemOne]
    split
    · exact levelsOk_applyUpdates u hu _ h
    · exact h
  | .mk i t l (some cs), h => by
    rw [Editor.updateItemOne]
    split
    · exact levelsOk_applyUpdates u hu _ h
    · have hd := levelsOkItem_destruct i t l (some cs) h
      exact levelsOkItem_mk i t l _ hd.1
        (fun cs2 hc2 => (Option.some.inj hc2) ▸
          levelsOk_updateItemForest tid u hu cs (hd.2 cs rfl))

theorem levelsOk_updateItemForest (tid : String) (u : Editor.ItemUpdates)
    (hu : ∀ v, u.levelU = some v → 0 ≤ v ∧ v ≤ 5) :
    ∀ xs : List Item, levelsOkForest xs → levelsOkForest (Editor.updateItemForest tid u xs)
  | [], h => h
  | x :: xs, h => by
    rw [Editor.updateItemForest, levelsOkForest_cons]
    rw [levelsOkForest_cons] at h
    exact ⟨levelsOk_updateItemOne tid u hu x h.1,
      levelsOk_updateItemForest tid u hu xs h.2⟩

end

mutual

theorem levelsOk_deleteItemOne (tid : String) :
    ∀ x : Item, levelsOkItem x →
      ∀ y, Editor.deleteItemOne tid x = some y → levelsOkItem y
  | .mk i t l none, h, y, hy => by
    rw [Editor.deleteItemOne] at hy
    split at hy
    · exact Option.noConfusion hy
    · exact (Option.some.inj hy) ▸ h
  | .mk i t l (some cs), h, y, hy => by
    rw [Editor.deleteItemOne] at hy
    split at hy
    · exact Option.noConfusion hy
    · have hd := levelsOkItem_destruct i t l (some cs) h
      exact (Option.some.inj hy) ▸
        levelsOkItem_mk i t l _ hd.1
          (fun cs2 hc2 => (Option.some.inj hc2) ▸
            levelsOk_deleteItemForest tid cs (hd.2 cs rfl))

theorem levelsOk_deleteItemForest (tid : String) :
    ∀ xs : List Item, levelsOkForest xs → levelsOkForest (Editor.deleteItemForest tid xs)
  | [], h => h
  | x :: xs, h => by
    rw [Editor.deleteItemForest]
    rw [levelsOkForest_cons] at h
    cases hy : Editor.deleteItemOne tid x with
    | none => exact levelsOk_deleteItemForest tid xs h.2
    | some y =>
      rw [levelsOkForest_cons]
      exact ⟨levelsOk_deleteItemOne tid x h.1 y hy,
        levelsOk_deleteItemForest tid xs h.2⟩

end

mutual

theorem levelsOk_addAfterOne (tid : String) (v : Item) (hv : levelsOkItem v) :
    ∀ x : Item, levelsOkItem x → levelsOkItem (Editor.addAfterOne tid v x)
  | .mk i t l none, h => by
    rw [Editor.addAfterOne]
    exact h
  | .mk i t l (some cs), h => by
    rw [Editor.addAfterOne]
    have hd := levelsOkItem_destruct i t l (some cs) h
    exact levelsOkItem_mk i t l _ hd.1
      (fun cs2 hc2 => (Option.some.inj hc2) ▸
        levelsOk_addAfterForest tid v hv cs (hd.2 cs rfl))

theorem levelsOk_addAfterForest (tid : String) (v : Item) (hv : levelsOkItem v) :
    ∀ xs : List Item, levelsOkForest xs → levelsOkForest (Editor.addAfterForest tid v xs)
  | [], h => h
  | x :: xs, h => by
    rw [Editor.addAfterForest]
    rw [levelsOkForest_cons] at h
    split
    · rw [levelsOkForest_cons, levelsOkForest_cons]
      exact ⟨levelsOk_addAfterOne tid v hv x h.1, hv,
        levelsOk_addAfterForest tid v hv xs h.2⟩
    · rw [levelsOkForest_cons]
      exact ⟨levelsOk_addAfterOne tid v hv x h.1,
        levelsOk_addAfterForest tid v hv xs h.2⟩

end

mutual

theorem levelsOk_updAddItem (tid : String) (u : Editor.ItemUpdates)
    (hu : ∀ w, u.levelU = some w → 0 ≤ w ∧ w ≤ 5) (v : Item) (hv : levelsOkItem v) :
    ∀ x : Item, levelsOkItem x → levelsOkForest (Editor.updAddItem tid u v x)
  | .mk i t l none, h => by
    rw [Editor.updAddItem]
    split
    · rw [levelsOkForest_cons, levelsOkForest_cons]
      exact ⟨levelsOk_applyUpdates u hu _ h, hv, levelsOkForest_nil⟩
    · rw [levelsOkForest_cons]
      exact ⟨h, levelsOkForest_nil⟩
  | .mk i t l (some cs), h => by
    rw [Editor.updAddItem]
    split
    · rw [levelsOkForest_cons, levelsOkForest_cons]
      exact ⟨levelsOk_applyUpdates u hu _ h, hv, levelsOkForest_nil⟩
    · rw [levelsOkForest_cons]
      have hd := levelsOkItem_destruct i t l (some cs) h
      exact ⟨levelsOkItem_mk i t l _ hd.1
        (fun cs2 hc2 => (Option.some.inj hc2) ▸
          levelsOk_updAddForest tid u hu v hv cs (hd.2 cs rfl)),
        levelsOkForest_nil⟩

theorem levelsOk_updAddForest (tid : String) (u : Editor.ItemUpdates)
    (hu : ∀ w, u.levelU = some w → 0 ≤ w ∧ w ≤ 5) (v : Item) (hv : levelsOkItem v) :
    ∀ xs : List Item, levelsOkForest xs → levelsOkForest (Editor.updAddForest tid u v xs)
  | [], h => h
  | x :: xs, h => by
    rw [Editor.updAddForest, levelsOkForest_append]
    rw [levelsOkForest_cons] at h
    exact ⟨levelsOk_updAddItem tid u hu v hv x h.1,
      levelsOk_updAddForest tid u hu v hv xs h.2⟩

end

mutual

theorem levelsOk_adjustItem (d : Int) : ∀ x : Item, levelsOkItem (Editor2.adjustItem d x)
  | .mk i t l none => by
    rw [Editor2.adjustItem]
    apply levelsOkItem_mk
    · exact ⟨le_min (by norm_num) (le_max_left 0 (l + d)), min_le_left 5 _⟩
    · exact fun cs hc => Option.noConfusion hc
  | .mk i t l (some cs) => by
    rw [Editor2.adjustItem]
    apply levelsOkItem_mk
    · exact ⟨le_min (by norm_num) (le_max_left 0 (l + d)), min_le_left 5 _⟩
    · exact fun cs2 hc2 => (Option.some.inj hc2) ▸ levelsOk_adjustForest d cs

theorem levelsOk_adjustForest (d : Int) : ∀ xs : List Item, levelsOkForest (Editor2.adjustForest d xs)
  | [] => levelsOkForest_nil
  | x :: xs => by
    rw [Editor2.adjustForest, levelsOkForest_cons]
    exact ⟨levelsOk_adjustItem d x, levelsOk_adjustForest d xs⟩

end

mutual

theorem levelsOk_cleanupItem : ∀ x : Item, levelsOkItem x → levelsOkItem (Editor2.cleanupItem x)
  | .mk i t l none, h => by
    rw [Editor2.cleanupItem]
    exact h
  | .mk i t l (some cs), h => by
    rw [Editor2.cleanupItem]
    have hd := levelsOkItem_destruct i t l (some cs) h
    split
    · exact levelsOkItem_mk i t l none hd.1 (fun cs2 hc2 => Option.noConfusion hc2)
    · exact levelsOkItem_mk i t l _ hd.1
        (fun cs2 hc2 => (Option.some.inj hc2) ▸
          levelsOk_cleanupForest cs (hd.2 cs rfl))

theorem levelsOk_cleanupForest : ∀ xs : List Item,
    levelsOkForest xs → levelsOkForest (Editor2.cleanupForest xs)
  | [], h => h
  | x :: xs, h => by
    rw [Editor2.cleanupForest, levelsOkForest_cons]
    rw [levelsOkForest_cons] at h
    exact ⟨levelsOk_cleanupItem x h.1, levelsOk_cleanupForest xs h.2⟩

end

theorem levelsOk_pushChild (v : Item) (hv : levelsOkItem v) :
    ∀ x : Item, levelsOkItem x → levelsOkItem (Editor2.pushChild v x)
  | .mk i t l none, h => by
    rw [Editor2.pushChild]
    have hd := levelsOkItem_destruct i t l none h
    exact levelsOkItem_mk i t l _ hd.1
      (fun cs2 hc2 => (Option.some.inj hc2) ▸
        (levelsOkForest_cons.mpr ⟨hv, levelsOkForest_nil⟩))
  | .mk i t l (some cs), h => by
    rw [Editor2.pushChild]
    have hd := levelsOkItem_destruct i t l (some cs) h
    exact levelsOkItem_mk i t l _ hd.1
      (fun cs2 hc2 => (Option.some.inj hc2) ▸
        ((levelsOkForest_append cs [v]).mpr
          ⟨hd.2 cs rfl, levelsOkForest_cons.mpr ⟨hv, levelsOkForest_nil⟩⟩))

theorem levelsOk_mergeInto (txt : String) (ch : Option (List Item))
    (hch : ∀ cs, ch = some cs → levelsOkForest cs) :
    ∀ x : Item, levelsOkItem x → levelsOkItem (Editor.mergeInto txt ch x)
  | .mk i t l c, h => by
    rw [Editor.mergeInto.eq_def]
    have hd := levelsOkItem_destruct i t l c h
    apply levelsOkItem_mk _ _ _ _ hd.1
    intro cs2 hc2
    revert hc2
    cases ch with
    | none => exact fun hc2 => hd.2 cs2 hc2
    | some cs =>
      intro hc2
      have hc3 : (if cs.length > 0 then some (c.getD [] ++ cs) else c) = some cs2 := hc2
      by_cases hlen : cs.length > 0
      · rw [if_pos hlen] at hc3
        rw [← Option.some.inj hc3, levelsOkForest_append]
        constructor
        · cases c with
          | none => exact levelsOkForest_nil
          | some c0 => exact hd.2 c0 rfl
        · exact hch cs rfl
      · rw [if_neg hlen] at hc3
        exact hd.2 cs2 hc3

theorem levelsOk_tabIndent (items : List Item) (tid : String) (h : levelsOkForest items) :
    levelsOkForest (Editor.tabIndent items tid) := by
  rw [Editor.tabIndent]
  split
  · exact h
  · split
    · exact h
    · next it hit =>
      split
      · next hlt =>
        rw [Editor.updateItem]
        apply levelsOk_updateItemForest _ _ _ items h
        intro v hv
        have hl := levelsOkItem_level it (levelsOk_getAtPath _ items it h hit)
        have hv2 : some (it.level + 1) = some v := hv
        have := Option.some.inj hv2
        omega
      · exact h

theorem levelsOk_shiftTabOutdent (items : List Item) (tid : String) (h : levelsOkForest items) :
    levelsOkForest (Editor.shiftTabOutdent items tid) := by
  rw [Editor.shiftTabOutdent]
  split
  · exact h
  · split
    · exact h
    · next it hit =>
      split
      · next hlt =>
        rw [Editor.updateItem]
        apply levelsOk_updateItemForest _ _ _ items h
        intro v hv
        have hl := levelsOkItem_level it (levelsOk_getAtPath _ items it h hit)
        have hv2 : some (it.level - 1) = some v := hv
        have := Option.some.inj hv2
        omega
      · exact h

theorem levelsOk_enterSplit (items : List Item) (tid : String) (caret : Nat)
    (newId : String) (h : levelsOkForest items) :
    levelsOkForest (Editor.enterSplit items tid caret newId) := by
  rw [Editor.enterSplit]
  split
  · exact h
  · split
    · exact h
    · next it hit =>
      rw [Editor.updateAndAddAfter]
      apply levelsOk_updAddForest _ _ _ _ _ items h
      · intro w hw
        exact Option.noConfusion hw
      · apply levelsOkItem_mk
        · exact levelsOkItem_level it (levelsOk_getAtPath _ items it h hit)
        · intro cs hcs
          exact Option.noConfusion hcs

theorem levelsOk_mergeWithPrevious (items : List Item) (tid : String)
    (h : levelsOkForest items) : levelsOkForest (Editor.mergeWithPrevious items tid) := by
  rw [Editor.mergeWithPrevious]
  split
  · exact h
  · split <;> try exact h
    split <;> try exact h
    next cur hprev hcur =>
      apply levelsOk_updateAtPath
      · exact levelsOk_mergeInto _ _
          (fun cs hcs => levelsOkItem_children _ (levelsOk_getAtPath _ items _ h hcur) cs hcs)
      · exact levelsOk_removeAtPath _ items h

theorem levelsOk_mergeWithNext (items : List Item) (tid : String)
    (h : levelsOkForest items) : levelsOkForest (Editor.mergeWithNext items tid) := by
  rw [Editor.mergeWithNext]
  split
  · exact h
  · split <;> try exact h
    split <;> try exact h
    next nxt hcur hnxt =>
      apply levelsOk_updateAtPath
      · exact levelsOk_mergeInto _ _
          (fun cs hcs => levelsOkItem_children _ (levelsOk_getAtPath _ items _ h hnxt) cs hcs)
      · exact levelsOk_removeAtPath _ items h

theorem levelsOk_moveItemUp (items : List Item) (tid : String)
    (h : levelsOkForest items) : levelsOkForest (Editor.moveItemUp items tid) := by
  rw [Editor.moveItemUp]
  split
  · exact h
  · split
    · exact h
    · split
      · exact h
      · exact levelsOk_mapArrayAtPath _ (fun a ha => levelsOk_swapAdj a _ ha) _ items h

theorem levelsOk_moveItemDown (items : List Item) (tid : String)
    (h : levelsOkForest items) : levelsOkForest (Editor.moveItemDown items tid) := by
  rw [Editor.moveItemDown]
  split
  · exact h
  · split
    · exact h
    · split
      · exact h
      · split
        · exact h
        · exact levelsOk_mapArrayAtPath _ (fun a ha => levelsOk_swapAdj a _ ha) _ items h

theorem levelsOk_duplicateItem (items : List Item) (tid freshId : String)
    (h : levelsOkForest items) : levelsOkForest (Editor.duplicateItem items tid freshId) := by
  rw [Editor.duplicateItem]
  split
  · exact h
  · split
    · exact h
    · next it hit =>
      rw [Editor.addItemAfter]
      apply levelsOk_addAfterForest _ _ _ items h
      have hok := levelsOk_getAtPath _ items it h hit
      apply levelsOkItem_mk
      · exact levelsOkItem_level it hok
      · intro cs hcs
        revert hcs
        cases hc : it.children with
        | none => intro hcs; exact Option.noConfusion hcs
        | some cs0 =>
          intro hcs
          simp [cloneItems_eq] at hcs
          rw [← hcs]
          exact levelsOkItem_children it hok cs0 hc

theorem levelsOk_deleteItem (items : List Item) (tid : String)
    (h : levelsOkForest items) : levelsOkForest (Editor.deleteItem items tid) := by
  rw [Editor.deleteItem]
  exact levelsOk_deleteItemForest tid items h

theorem levelsOk_indentStructural (items : List Item) (tid : String)
    (h : levelsOkForest items) : levelsOkForest (Editor2.indentItem items tid) := by
  rw [Editor2.indentItem, cloneItems_eq]
  split
  · exact h
  · split
    · exact h
    · split
      · exact h
      · split
        · exact h
        · next arr harr =>
          split
          · next prevSib itemToMove hps hitm =>
            dsimp only
            split
            · exact h
            · split
              · exact h
              · have hitmOk : levelsOkItem itemToMove :=
                  levelsOk_get? arr _ itemToMove
                    (levelsOk_arrayAtPath _ items arr h harr) hitm
                have hmoved : levelsOkItem
                    (if min (prevSib.level + 1) 5 - itemToMove.level = 0 then itemToMove
                     else Editor2.adjustItem (min (prevSib.level + 1) 5 - itemToMove.level)
                       itemToMove) := by
                  split
                  · exact hitmOk
                  · exact levelsOk_adjustItem _ itemToMove
                split
                · exact levelsOk_updateAtPath _ (levelsOk_pushChild _ hmoved) _ _
                    (levelsOk_removeAtPath _ items h)
                · exact levelsOk_updateAtPath _ levelsOk_cleanupItem _ _
                    (levelsOk_updateAtPath _ (levelsOk_pushChild _ hmoved) _ _
                      (levelsOk_removeAtPath _ items h))
          · exact h

theorem levelsOk_outdentStructural (items : List Item) (tid : String)
    (h : levelsOkForest items) : levelsOkForest (Editor2.outdentItem items tid) := by
  rw [Editor2.outdentItem, cloneItems_eq]
  split
  · exact h
  · exact h
  · split
    · exact h
    · split
      · next itemToMove parentIndex hitm hpi =>
        dsimp only
        split
        · exact h
        · have hitmOk : levelsOkItem itemToMove :=
            levelsOk_getAtPath _ items itemToMove h hitm
          apply levelsOk_updateAtPath _ levelsOk_cleanupItem
          split
          · exact levelsOk_insertAtArrayPath _ hitmOk _ _ _
              (levelsOk_removeAtPath _ items h)
          · exact levelsOk_updateAtPath _ (fun x hx => levelsOk_adjustItem _ itemToMove) _ _
              (levelsOk_insertAtArrayPath _ hitmOk _ _ _
                (levelsOk_removeAtPath _ items h))
      · exact h

/-! Refinement of `updateAndAddAfter` against the spec's split contract
(for C3). -/

mutual

theorem updAddItem_eq_splitSpec (tid tb : String) (v : Item) :
    ∀ x : Item, Editor.updAddItem tid ⟨some tb, none⟩ v x = SpecModel.splitItemSpec tid tb v x
  | .mk i t l none => by
    rw [Editor.updAddItem, SpecModel.splitItemSpec]
    simp [Editor.applyUpdates]
  | .mk i t l (some cs) => by
    rw [Editor.updAddItem, SpecModel.splitItemSpec,
      updAddForest_eq_splitSpec tid tb v cs]
    simp [Editor.applyUpdates]

theorem updAddForest_eq_splitSpec (tid tb : String) (v : Item) :
    ∀ xs : List Item,
      Editor.updAddForest tid ⟨some tb, none⟩ v xs = SpecModel.splitForestSpec tid tb v xs
  | [] => rfl
  | x :: xs => by
    rw [Editor.updAddForest, SpecModel.splitForestSpec,
      updAddItem_eq_splitSpec tid tb v x, updAddForest_eq_splitSpec tid tb v xs]

end

/-! ## Claim C3

The Enter split: target keeps its children and the text before the
caret; exactly one new sibling with the text after the caret appears
immediately after it, at the same level, in the same owning array. -/

/-- C3: for every document and target item (found at path `p`), the Enter
split equals the spec's split contract — the target's text becomes the
part before the caret with its children kept, one new item with the part
after the caret and the target's level is inserted immediately after it
in the same owning array, and every other item is unchanged; on the
document `[a "Foo" 0]`, splitting between "Fo" and "o" yields
`[a "Fo" 0, new "o" 0]`. -/
theorem C3_split_matches_spec :
    (∀ (items : List Item) (tid : String) (caret : Nat) (newId : String)
        (p : List Nat) (tgt : Item),
      Editor.findItemPath items tid = some p →
      Editor.getAtPath items p = some tgt →
      Editor.enterSplit items tid caret newId =
        SpecModel.splitForestSpec tid (tgt.text.take caret)
          (.mk newId (tgt.text.drop caret) tgt.level none) items) ∧
    Editor.enterSplit [.mk "a" "Foo" 0 none] "a" 2 "n" =
      [.mk "a" "Fo" 0 none, .mk "n" "o" 0 none] := by
  constructor
  · intro items tid caret newId p tgt hp htgt
    rw [Editor.enterSplit]
    simp only [hp, htgt]
    rw [Editor.updateAndAddAfter]
    exact updAddForest_eq_splitSpec tid (tgt.text.take caret) _ items
  · rfl

/-- C3 witness: the general refinement applied to the concrete scenario
document, with the lookup hypotheses discharged by evaluation. -/
theorem C3_split_matches_spec_witness :
    Editor.enterSplit [.mk "a" "Foo" 0 none] "a" 2 "n" =
      SpecModel.splitForestSpec "a" "Fo" (.mk "n" "o" 0 none)
        [.mk "a" "Foo" 0 none] :=
  C3_split_matches_spec.1 [.mk "a" "Foo" 0 none] "a" 2 "n" [0]
    (.mk "a" "Foo" 0 none) rfl rfl

/-! Index-of lemmas for the visual-order id sequence. -/

theorem idxOf?_eq_none_iff (a : String) : ∀ l : List String, idxOf? a l = none ↔ a ∉ l
  | [] => by simp [idxOf?]
  | x :: xs => by
    rw [idxOf?]
    by_cases hx : x = a
    · subst hx
      simp
    · simp only [if_neg hx, Option.map_eq_none', idxOf?_eq_none_iff a xs, List.mem_cons]
      constructor
      · intro h hm
        rcases hm with hm | hm
        · exact hx hm.symm
        · exact h hm
      · exact fun h hm => h (Or.inr hm)

theorem idxOf?_lt_length (a : String) : ∀ (l : List String) (i : Nat),
    idxOf? a l = some i → i < l.length
  | [], i, h => by simp [idxOf?] at h
  | x :: xs, i, h => by
    rw [idxOf?] at h
    by_cases hx : x = a
    · rw [if_pos hx] at h
      have := Option.some.inj h
      simp [← this]
    · rw [if_neg hx] at h
      cases hj : idxOf? a xs with
      | none => rw [hj] at h; simp at h
      | some j =>
        rw [hj] at h
        simp at h
        have := idxOf?_lt_length a xs j hj
        simp
        omega

theorem idxOf?_append_left (a : String) : ∀ l₁ l₂ : List String,
    a ∈ l₁ → idxOf? a (l₁ ++ l₂) = idxOf? a l₁
  | [], _, h => absurd h (List.not_mem_nil a)
  | x :: xs, l₂, h => by
    rw [List.cons_append, idxOf?, idxOf?]
    by_cases hx : x = a
    · simp [hx]
    · rw [if_neg hx, if_neg hx,
        idxOf?_append_left a xs l₂ ((List.mem_cons.mp h).resolve_left (fun he => hx he.symm))]

theorem idxOf?_append_right (a : String) : ∀ l₁ l₂ : List String, a ∉ l₁ →
    idxOf? a (l₁ ++ l₂) = (idxOf? a l₂).map (fun i => l₁.length + i)
  | [], l₂, _ => by
    rw [List.nil_append]
    cases hq : idxOf? a l₂ <;> simp [hq]
  | x :: xs, l₂, h => by
    rw [List.cons_append, idxOf?]
    have hx : ¬x = a := fun he => h (he ▸ List.mem_cons_self x xs)
    rw [if_neg hx, idxOf?_append_right a xs l₂ (fun hm => h (List.mem_cons_of_mem x hm))]
    cases idxOf? a l₂ <;> simp
    omega

/-! Shift and shape lemmas for `findItemPath`. -/

theorem findPathItem_shift (tid : String) (x : Item) (n : Nat) :
    Editor.findPathItem tid x (n + 1) = Option.map headSucc (Editor.findPathItem tid x n) := by
  cases x with
  | mk i t l c =>
    cases c with
    | none =>
      rw [Editor.findPathItem, Editor.findPathItem]
      by_cases hi : i = tid <;> simp [hi, headSucc]
    | some cs =>
      rw [Editor.findPathItem, Editor.findPathItem]
      by_cases hi : i = tid
      · simp [hi, headSucc]
      · by_cases hcs : cs.length > 0
        · simp only [if_neg hi, if_pos hcs]
          cases Editor.findPathForest tid cs 0 <;> simp [headSucc]
        · simp [hi, hcs]

theorem findPathForest_shift (tid : String) : ∀ (ts : List Item) (n : Nat),
    Editor.findPathForest tid ts (n + 1) =
      Option.map headSucc (Editor.findPathForest tid ts n)
  | [], _ => rfl
  | x :: xs, n => by
    rw [Editor.findPathForest, Editor.findPathForest, findPathItem_shift]
    cases Editor.findPathItem tid x n with
    | some p => simp
    | none =>
      simp only [Option.map_none']
      exact findPathForest_shift tid xs (n + 1)

theorem findPathItem_shape (tid : String) (x : Item) (n : Nat) :
    ∀ p, Editor.findPathItem tid x n = some p → ∃ rest, p = n :: rest := by
  intro p h
  cases x with
  | mk i t l c =>
    cases c with
    | none =>
      rw [Editor.findPathItem] at h
      split at h
      · exact ⟨[], (Option.some.inj h).symm⟩
      · exact Option.noConfusion h
    | some cs =>
      rw [Editor.findPathItem] at h
      split at h
      · exact ⟨[], (Option.some.inj h).symm⟩
      · split at h
        · cases hq : Editor.findPathForest tid cs 0 with
          | none => rw [hq] at h; exact Option.noConfusion h
          | some q =>
            rw [hq] at h
            simp at h
            exact ⟨q, h.symm⟩
        · exact Option.noConfusion h

theorem findPathForest_shape (tid : String) : ∀ (ts : List Item) (n : Nat) (p : List Nat),
    Editor.findPathForest tid ts n = some p → ∃ i rest, p = i :: rest
  | [], n, p, h => Option.noConfusion h
  | x :: xs, n, p, h => by
    rw [Editor.findPathForest] at h
    revert h
    cases hx : Editor.findPathItem tid x n with
    | some q =>
      intro h
      obtain ⟨rest, hr⟩ := findPathItem_shape tid x n q hx
      exact ⟨n, rest, by rw [← Option.some.inj h, hr]⟩
    | none =>
      intro h
      exact findPathForest_shape tid xs (n + 1) p h

theorem findPathForest_cons_inv (tid : String) (x : Item) (xs : List Item) (p : List Nat)
    (h : Editor.findPathForest tid (x :: xs) 0 = some p) :
    Editor.findPathItem tid x 0 = some p ∨
    (Editor.findPathItem tid x 0 = none ∧
      ∃ i is, Editor.findPathForest tid xs 0 = some (i :: is) ∧ p = (i + 1) :: is) := by
  rw [Editor.findPathForest] at h
  revert h
  cases hx : Editor.findPathItem tid x 0 with
  | some q =>
    intro h
    have h2 : some q = some p := h
    exact Or.inl h2
  | none =>
    intro h
    right
    refine ⟨rfl, ?_⟩
    rw [findPathForest_shift] at h
    revert h
    cases hq : Editor.findPathForest tid xs 0 with
    | none => intro h; exact Option.noConfusion h
    | some q =>
      intro h
      obtain ⟨i, rest, hr⟩ := findPathForest_shape tid xs 0 q hq
      subst hr
      exact ⟨i, rest, rfl, by simpa [headSucc] using h.symm⟩

theorem findPathItem_zero_inv (tid i t : String) (l : Int) (c : Option (List Item))
    (p : List Nat) (h : Editor.findPathItem tid (.mk i t l c) 0 = some p) :
    (i = tid ∧ p = [0]) ∨
    (¬i = tid ∧ ∃ cs p₂, c = some cs ∧
      Editor.findPathForest tid cs 0 = some p₂ ∧ p = 0 :: p₂) := by
  cases c with
  | none =>
    rw [Editor.findPathItem] at h
    split at h
    · next hi => exact Or.inl ⟨hi, (Option.some.inj h).symm⟩
    · exact Option.noConfusion h
  | some cs =>
    rw [Editor.findPathItem] at h
    split at h
    · next hi => exact Or.inl ⟨hi, (Option.some.inj h).symm⟩
    · next hi =>
      split at h
      · revert h
        cases hq : Editor.findPathForest tid cs 0 with
        | none => intro h; exact Option.noConfusion h
        | some q =>
          intro h
          simp at h
          exact Or.inr ⟨hi, cs, q, rfl, hq, h.symm⟩
      · exact Option.noConfusion h

/-! Membership characterization of `findItemPath`, and no-op lemmas. -/

mutual

theorem findPathItem_none_iff (tid : String) : ∀ (x : Item) (n : Nat),
    Editor.findPathItem tid x n = none ↔ tid ∉ Editor.visualIdsItem x
  | .mk i t l none, n => by
    rw [Editor.findPathItem, Editor.visualIdsItem]
    by_cases hi : i = tid <;> simp [hi]
    exact fun he => hi he.symm
  | .mk i t l (some cs), n => by
    rw [Editor.findPathItem, Editor.visualIdsItem]
    by_cases hi : i = tid
    · simp [hi]
    · by_cases hcs : cs.length > 0
      · simp only [if_neg hi, if_pos hcs, Option.map_eq_none',
          findPathForest_none_iff tid cs 0, List.mem_cons]
        constructor
        · intro h hm
          rcases hm with hm | hm
          · exact hi hm.symm
          · exact h hm
        · exact fun h hm => h (Or.inr hm)
      · have : cs = [] := List.length_eq_zero.mp (by omega)
        subst this
        simp [hi, Editor.visualIdsForest]
        exact fun he => hi he.symm

theorem findPathForest_none_iff (tid : String) : ∀ (ts : List Item) (n : Nat),
    Editor.findPathForest tid ts n = none ↔ tid ∉ Editor.visualIdsForest ts
  | [], n => by simp [Editor.findPathForest, Editor.visualIdsForest]
  | x :: xs, n => by
    rw [Editor.findPathForest, Editor.visualIdsForest]
    cases hx : Editor.findPathItem tid x n with
    | some q =>
      simp only []
      constructor
      · intro h; exact Option.noConfusion h
      · intro h
        exact absurd ((findPathItem_none_iff tid x n).mpr
          (fun hm => h (List.mem_append.mpr (Or.inl hm)))) (by rw [hx]; simp)
    | none =>
      simp only [findPathForest_none_iff tid xs (n + 1), List.mem_append]
      have hnx := (findPathItem_none_iff tid x n).mp hx
      constructor
      · intro h hm
        rcases hm with hm | hm
        · exact hnx hm
        · exact h hm
      · exact fun h hm => h (Or.inr hm)

end

mutual

theorem mapByIdItem_noop (f : Item → Item) (tid : String) :
    ∀ x : Item, tid ∉ Editor.visualIdsItem x → SpecModel.mapByIdItem f tid x = x
  | .mk i t l none, h => by
    rw [SpecModel.mapByIdItem]
    rw [Editor.visualIdsItem] at h
    rw [if_neg (fun hi => h (by rw [hi]; exact List.mem_singleton_self tid))]
  | .mk i t l (some cs), h => by
    rw [SpecModel.mapByIdItem]
    rw [Editor.visualIdsItem] at h
    rw [if_neg (fun hi => h (by rw [hi]; exact List.mem_cons_self tid _)),
      mapByIdForest_noop f tid cs (fun hm => h (List.mem_cons_of_mem i hm))]

theorem mapByIdForest_noop (f : Item → Item) (tid : String) :
    ∀ ts : List Item, tid ∉ Editor.visualIdsForest ts → SpecModel.mapByIdForest f tid ts = ts
  | [], _ => rfl
  | x :: xs, h => by
    rw [SpecModel.mapByIdForest]
    rw [Editor.visualIdsForest] at h
    rw [mapByIdItem_noop f tid x (fun hm => h (List.mem_append.mpr (Or.inl hm))),
      mapByIdForest_noop f tid xs (fun hm => h (List.mem_append.mpr (Or.inr hm)))]

end

mutual

theorem deleteItemOne_noop (tid : String) :
    ∀ x : Item, tid ∉ Editor.visualIdsItem x → Editor.deleteItemOne tid x = some x
  | .mk i t l none, h => by
    rw [Editor.deleteItemOne]
    rw [Editor.visualIdsItem] at h
    rw [if_neg (fun hi => h (by rw [hi]; exact List.mem_singleton_self tid))]
  | .mk i t l (some cs), h => by
    rw [Editor.deleteItemOne]
    rw [Editor.visualIdsItem] at h
    rw [if_neg (fun hi => h (by rw [hi]; exact List.mem_cons_self tid _)),
      deleteItemForest_noop tid cs (fun hm => h (List.mem_cons_of_mem i hm))]

theorem deleteItemForest_noop (tid : String) :
    ∀ ts : List Item, tid ∉ Editor.visualIdsForest ts → Editor.deleteItemForest tid ts = ts
  | [], _ => rfl
  | x :: xs, h => by
    rw [Editor.deleteItemForest]
    rw [Editor.visualIdsForest] at h
    rw [deleteItemOne_noop tid x (fun hm => h (List.mem_append.mpr (Or.inl hm))),
      deleteItemForest_noop tid xs (fun hm => h (List.mem_append.mpr (Or.inr hm)))]

end

/-! Path-skip equations. -/

theorem updateAtPath_cons_succ (f : Item → Item) (x : Item) (xs : List Item)
    (i : Nat) (is : List Nat) :
    Editor.updateAtPath f (x :: xs) ((i + 1) :: is) = x :: Editor.updateAtPath f xs (i :: is) := by
  cases is <;> rfl

theorem removeAtPath_cons_succ (x : Item) (xs : List Item) (i : Nat) (is : List Nat) :
    Editor.removeAtPath (x :: xs) ((i + 1) :: is) = x :: Editor.removeAtPath xs (i :: is) := by
  cases is <;> rfl

theorem getAtPath_cons_succ (x : Item) (xs : List Item) (i : Nat) (is : List Nat) :
    Editor.getAtPath (x :: xs) ((i + 1) :: is) = Editor.getAtPath xs (i :: is) := by
  cases is with
  | nil => rw [Editor.getAtPath, Editor.getAtPath]; simp
  | cons j js => rw [Editor.getAtPath, Editor.getAtPath]; simp

/-! Small unfolding lemmas. -/

theorem visualIdsItem_eq (i t : String) (l : Int) (c : Option (List Item)) :
    Editor.visualIdsItem (.mk i t l c) = i :: Editor.visualIdsForest (c.getD []) := by
  cases c <;> rfl

theorem mapByIdItem_hit (f : Item → Item) (tid i t : String) (l : Int)
    (c : Option (List Item)) (hi : i = tid) :
    SpecModel.mapByIdItem f tid (.mk i t l c) = f (.mk i t l c) := by
  cases c <;> rw [SpecModel.mapByIdItem, if_pos hi]

theorem mapByIdItem_miss_some (f : Item → Item) (tid i t : String) (l : Int)
    (cs : List Item) (hi : ¬i = tid) :
    SpecModel.mapByIdItem f tid (.mk i t l (some cs)) =
      .mk i t l (some (SpecModel.mapByIdForest f tid cs)) := by
  rw [SpecModel.mapByIdItem, if_neg hi]

theorem deleteItemOne_hit (tid i t : String) (l : Int) (c : Option (List Item))
    (hi : i = tid) : Editor.deleteItemOne tid (.mk i t l c) = none := by
  cases c <;> rw [Editor.deleteItemOne, if_pos hi]

theorem deleteItemOne_miss_some (tid i t : String) (l : Int) (cs : List Item)
    (hi : ¬i = tid) :
    Editor.deleteItemOne tid (.mk i t l (some cs)) =
      some (.mk i t l (some (Editor.deleteItemForest tid cs))) := by
  rw [Editor.deleteItemOne, if_neg hi]

theorem findByIdItem_hit (tid i t : String) (l : Int) (c : Option (List Item))
    (hi : i = tid) : SpecModel.findByIdItem tid (.mk i t l c) = some (.mk i t l c) := by
  cases c <;> rw [SpecModel.findByIdItem, if_pos hi]

theorem findByIdItem_miss_some (tid i t : String) (l : Int) (cs : List Item)
    (hi : ¬i = tid) :
    SpecModel.findByIdItem tid (.mk i t l (some cs)) = SpecModel.findByIdForest tid cs := by
  rw [SpecModel.findByIdItem, if_neg hi]

theorem getAtPath_cons_zero (x : Item) (xs : List Item) :
    Editor.getAtPath (x :: xs) [0] = some x := by
  rw [Editor.getAtPath]
  simp

theorem getAtPath_cons_zero_deep (x : Item) (xs : List Item) (j : Nat) (js : List Nat) :
    Editor.getAtPath (x :: xs) (0 :: j :: js) =
      (match x.children with
       | some cs => Editor.getAtPath cs (j :: js)
       | none => none) := by
  rw [Editor.getAtPath]
  simp

mutual

theorem findByIdItem_none (tid : String) :
    ∀ x : Item, tid ∉ Editor.visualIdsItem x → SpecModel.findByIdItem tid x = none
  | .mk i t l none, h => by
    rw [SpecModel.findByIdItem]
    rw [Editor.visualIdsItem] at h
    rw [if_neg (fun hi => h (by rw [hi]; exact List.mem_singleton_self tid))]
  | .mk i t l (some cs), h => by
    rw [SpecModel.findByIdItem]
    rw [Editor.visualIdsItem] at h
    rw [if_neg (fun hi => h (by rw [hi]; exact List.mem_cons_self tid _)),
      findByIdForest_none tid cs (fun hm => h (List.mem_cons_of_mem i hm))]

theorem findByIdForest_none (tid : String) :
    ∀ ts : List Item, tid ∉ Editor.visualIdsForest ts → SpecModel.findByIdForest tid ts = none
  | [], _ => rfl
  | x :: xs, h => by
    rw [SpecModel.findByIdForest]
    rw [Editor.visualIdsForest] at h
    rw [findByIdItem_none tid x (fun hm => h (List.mem_append.mpr (Or.inl hm))),
      findByIdForest_none tid xs (fun hm => h (List.mem_append.mpr (Or.inr hm)))]

end

theorem mem_of_findPathForest (tid : String) (ts : List Item) (n : Nat) (p : List Nat)
    (h : Editor.findPathForest tid ts n = some p) : tid ∈ Editor.visualIdsForest ts := by
  by_contra hmem
  rw [(findPathForest_none_iff tid ts n).mpr hmem] at h
  exact Option.noConfusion h

theorem mem_of_findPathItem (tid : String) (x : Item) (n : Nat) (p : List Nat)
    (h : Editor.findPathItem tid x n = some p) : tid ∈ Editor.visualIdsItem x := by
  by_contra hmem
  rw [(findPathItem_none_iff tid x n).mpr hmem] at h
  exact Option.noConfusion h

/-! The by-path operations at a found path agree with the by-id
operations, on documents with globally unique ids. -/

theorem updateAtPath_eq_mapById (f : Item → Item) (tid : String) :
    ∀ (ts : List Item) (p : List Nat),
      (Editor.visualIdsForest ts).Nodup →
      Editor.findPathForest tid ts 0 = some p →
      Editor.updateAtPath f ts p = SpecModel.mapByIdForest f tid ts
  | [], p, _, hp => Option.noConfusion hp
  | x :: xs, p, hnd, hp => by
    rw [Editor.visualIdsForest] at hnd
    have hndx := List.Nodup.of_append_left hnd
    have hndxs := List.Nodup.of_append_right hnd
    have hdisj := List.disjoint_of_nodup_append hnd
    rcases findPathForest_cons_inv tid x xs p hp with hitem | ⟨hnone, i0, is, hxs, rfl⟩
    · have hmemx := mem_of_findPathItem tid x 0 p hitem
      have hxs_noop : SpecModel.mapByIdForest f tid xs = xs :=
        mapByIdForest_noop f tid xs (fun hm => hdisj hmemx hm)
      cases x with
      | mk i t l c =>
        rcases findPathItem_zero_inv tid i t l c p hitem with ⟨hi, rfl⟩ |
          ⟨hi, cs, p₂, rfl, hcs, rfl⟩
        · rw [SpecModel.mapByIdForest, mapByIdItem_hit f tid i t l c hi, hxs_noop]
          rfl
        · obtain ⟨j, js, rfl⟩ := findPathForest_shape tid cs 0 p₂ hcs
          rw [SpecModel.mapByIdForest, mapByIdItem_miss_some f tid i t l cs hi, hxs_noop]
          have hndcs : (Editor.visualIdsForest cs).Nodup := by
            rw [visualIdsItem_eq] at hndx
            exact (List.nodup_cons.mp hndx).2
          rw [← updateAtPath_eq_mapById f tid cs (j :: js) hndcs hcs]
          rfl
    · have hnotx := (findPathItem_none_iff tid x 0).mp hnone
      rw [updateAtPath_cons_succ, SpecModel.mapByIdForest,
        mapByIdItem_noop f tid x hnotx,
        updateAtPath_eq_mapById f tid xs (i0 :: is) hndxs hxs]

theorem removeAtPath_eq_deleteById (tid : String) :
    ∀ (ts : List Item) (p : List Nat),
      (Editor.visualIdsForest ts).Nodup →
      Editor.findPathForest tid ts 0 = some p →
      Editor.removeAtPath ts p = Editor.deleteItemForest tid ts
  | [], p, _, hp => Option.noConfusion hp
  | x :: xs, p, hnd, hp => by
    rw [Editor.visualIdsForest] at hnd
    have hndx := List.Nodup.of_append_left hnd
    have hndxs := List.Nodup.of_append_right hnd
    have hdisj := List.disjoint_of_nodup_append hnd
    rcases findPathForest_cons_inv tid x xs p hp with hitem | ⟨hnone, i0, is, hxs, rfl⟩
    · have hmemx := mem_of_findPathItem tid x 0 p hitem
      have hxs_noop : Editor.deleteItemForest tid xs = xs :=
        deleteItemForest_noop tid xs (fun hm => hdisj hmemx hm)
      cases x with
      | mk i t l c =>
        rcases findPathItem_zero_inv tid i t l c p hitem with ⟨hi, rfl⟩ |
          ⟨hi, cs, p₂, rfl, hcs, rfl⟩
        · rw [Editor.deleteItemForest, deleteItemOne_hit tid i t l c hi, hxs_noop]
          rfl
        · obtain ⟨j, js, rfl⟩ := findPathForest_shape tid cs 0 p₂ hcs
          rw [Editor.deleteItemForest, deleteItemOne_miss_some tid i t l cs hi]
          have hndcs : (Editor.visualIdsForest cs).Nodup := by
            rw [visualIdsItem_eq] at hndx
            exact (List.nodup_cons.mp hndx).2
          rw [← removeAtPath_eq_deleteById tid cs (j :: js) hndcs hcs, hxs_noop]
          rfl
    · have hnotx := (findPathItem_none_iff tid x 0).mp hnone
      rw [removeAtPath_cons_succ, Editor.deleteItemForest,
        deleteItemOne_noop tid x hnotx,
        removeAtPath_eq_deleteById tid xs (i0 :: is) hndxs hxs]

/-! `getAtPath` at a found path returns the same node as the depth-first
by-id search. -/

theorem getAtPath_eq_findById (tid : String) :
    ∀ (ts : List Item) (p : List Nat),
      Editor.findPathForest tid ts 0 = some p →
      Editor.getAtPath ts p = SpecModel.findByIdForest tid ts ∧
      ∃ tgt, SpecModel.findByIdForest tid ts = some tgt ∧ tgt.id = tid
  | [], p, hp => Option.noConfusion hp
  | x :: xs, p, hp => by
    rcases findPathForest_cons_inv tid x xs p hp with hitem | ⟨hnone, i0, is, hxs, rfl⟩
    · cases x with
      | mk i t l c =>
        rcases findPathItem_zero_inv tid i t l c p hitem with ⟨hi, rfl⟩ |
          ⟨hi, cs, p₂, rfl, hcs, rfl⟩
        · rw [getAtPath_cons_zero, SpecModel.findByIdForest,
            findByIdItem_hit tid i t l c hi]
          exact ⟨rfl, .mk i t l c, rfl, hi.symm ▸ rfl⟩
        · obtain ⟨j, js, rfl⟩ := findPathForest_shape tid cs 0 p₂ hcs
          obtain ⟨hgcs, tgt, hfcs, htgt⟩ := getAtPath_eq_findById tid cs (j :: js) hcs
          rw [getAtPath_cons_zero_deep, SpecModel.findByIdForest,
            findByIdItem_miss_some tid i t l cs hi, hfcs]
          refine ⟨?_, tgt, rfl, htgt⟩
          show (match Item.children (.mk i t l (some cs)) with
            | some cs2 => Editor.getAtPath cs2 (j :: js)
            | none => none) = some tgt
          show Editor.getAtPath cs (j :: js) = some tgt
          rw [hgcs]
          exact hfcs
    · have hnotx := (findPathItem_none_iff tid x 0).mp hnone
      obtain ⟨hg, tgt, hf, htgt⟩ := getAtPath_eq_findById tid xs (i0 :: is) hxs
      rw [getAtPath_cons_succ, SpecModel.findByIdForest, findByIdItem_none tid x hnotx]
      exact ⟨hg, tgt, hf, htgt⟩

/-! The previous-in-visual-order item sits strictly before the target. -/

theorem prevInOrder_split (tid pid : String) : ∀ vo : List String,
    Editor.prevInOrder vo tid = some pid →
    ∃ l₁ l₂, vo = l₁ ++ pid :: tid :: l₂ ∧ tid ∉ l₁ ∧ ¬tid = pid
  | [], h => Option.noConfusion h
  | [x], h => by
    have h2 : (if x = tid then none else (none : Option String)) = some pid := h
    split at h2 <;> exact Option.noConfusion h2
  | x :: y :: rest, h => by
    have h2 : (if x = tid then none
        else if y = tid then some x else Editor.prevInOrder (y :: rest) tid) = some pid := h
    by_cases hx : x = tid
    · rw [if_pos hx] at h2
      exact Option.noConfusion h2
    · rw [if_neg hx] at h2
      by_cases hy : y = tid
      · rw [if_pos hy] at h2
        have hpx := Option.some.inj h2
        refine ⟨[], rest, by simp [← hpx, hy], List.not_mem_nil tid,
          fun he => hx (hpx.trans he.symm)⟩
      · rw [if_neg hy] at h2
        obtain ⟨l₁, l₂, heq, hnot, hne⟩ := prevInOrder_split tid pid (y :: rest) h2
        exact ⟨x :: l₁, l₂, by rw [List.cons_append, heq],
          fun hm => (List.mem_cons.mp hm).elim (fun he => hx he.symm) hnot, hne⟩

theorem prevInOrder_idx (vo : List String) (tid pid : String)
    (hnd : vo.Nodup) (h : Editor.prevInOrder vo tid = some pid) :
    ∃ ia ib, idxOf? pid vo = some ia ∧ idxOf? tid vo = some ib ∧ ia < ib := by
  obtain ⟨l₁, l₂, rfl, htl, hne⟩ := prevInOrder_split tid pid vo h
  have hdisj := List.disjoint_of_nodup_append hnd
  have hpid_not : pid ∉ l₁ := fun hm => hdisj hm (List.mem_cons_self pid _)
  refine ⟨l₁.length, l₁.length + 1, ?_, ?_, by omega⟩
  · rw [idxOf?_append_right pid l₁ _ hpid_not]
    rw [idxOf?]
    simp
  · rw [idxOf?_append_right tid l₁ _ htl]
    rw [idxOf?, if_neg (fun he => hne he.symm), idxOf?]
    simp

/-! Depth-first id order translates to depth-first path order. -/

theorem pathBefore_succ_down (a b : Nat) (as bs : List Nat)
    (h : pathBefore ((a + 1) :: as) ((b + 1) :: bs)) : pathBefore (a :: as) (b :: bs) := by
  rw [pathBefore] at h ⊢
  rcases h with h | ⟨he, hin⟩
  · exact Or.inl (by omega)
  · exact Or.inr ⟨by omega, hin⟩

theorem pathBefore_zero_strip (as bs : List Nat)
    (h : pathBefore (0 :: as) (0 :: bs)) : pathBefore as bs := by
  rw [pathBefore] at h
  rcases h with h | ⟨_, hin⟩
  · omega
  · exact hin

theorem pathBefore_of_idx (a b : String) :
    ∀ (ts : List Item) (qa qb : List Nat) (ia ib : Nat),
      (Editor.visualIdsForest ts).Nodup →
      idxOf? a (Editor.visualIdsForest ts) = some ia →
      idxOf? b (Editor.visualIdsForest ts) = some ib →
      ia < ib →
      Editor.findPathForest a ts 0 = some qa →
      Editor.findPathForest b ts 0 = some qb →
      pathBefore qa qb
  | [], qa, qb, ia, ib, _, _, _, _, hqa, _ => Option.noConfusion hqa
  | x :: xs, qa, qb, ia, ib, hnd, hia, hib, hlt, hqa, hqb => by
    rw [Editor.visualIdsForest] at hnd hia hib
    have hndx := List.Nodup.of_append_left hnd
    have hndxs := List.Nodup.of_append_right hnd
    rcases findPathForest_cons_inv a x xs qa hqa with hA | ⟨hAn, iA, isA, hAxs, rfl⟩ <;>
      rcases findPathForest_cons_inv b x xs qb hqb with hB | ⟨hBn, iB, isB, hBxs, rfl⟩
    · -- both inside x
      have hmemA := mem_of_findPathItem a x 0 qa hA
      have hmemB := mem_of_findPathItem b x 0 qb hB
      rw [idxOf?_append_left a _ _ hmemA] at hia
      rw [idxOf?_append_left b _ _ hmemB] at hib
      cases x with
      | mk i t l c =>
        rcases findPathItem_zero_inv a i t l c qa hA with ⟨hiA, rfl⟩ |
          ⟨hiA, csA, pA, hcA, hfA, rfl⟩ <;>
          rcases findPathItem_zero_inv b i t l c qb hB with ⟨hiB, rfl⟩ |
            ⟨hiB, csB, pB, hcB, hfB, rfl⟩
        · subst hiA
          subst hiB
          have h2 := Option.some.inj (hia.symm.trans hib)
          omega
        · obtain ⟨j, js, rfl⟩ := findPathForest_shape b csB 0 pB hfB
          rw [pathBefore]
          exact Or.inr ⟨rfl, by rw [pathBefore]; exact List.cons_ne_nil j js⟩
        · -- a inside, b = head: index contradiction
          rw [visualIdsItem_eq] at hia hib
          rw [idxOf?, if_pos hiB] at hib
          have hib0 := Option.some.inj hib
          rw [idxOf?, if_neg hiA] at hia
          revert hia
          cases idxOf? a (Editor.visualIdsForest (c.getD [])) with
          | none => intro hia; exact Option.noConfusion hia
          | some ja =>
            intro hia
            simp at hia
            omega
        · -- both inside children
          obtain ⟨jA, jsA, rfl⟩ := findPathForest_shape a csA 0 pA hfA
          obtain ⟨jB, jsB, rfl⟩ := findPathForest_shape b csB 0 pB hfB
          have hcc : csA = csB := by
            rw [hcA] at hcB
            exact Option.some.inj hcB
          subst hcc
          rw [visualIdsItem_eq, hcA] at hia hib hndx
          simp only [Option.getD_some] at hia hib hndx
          rw [idxOf?, if_neg hiA] at hia
          rw [idxOf?, if_neg hiB] at hib
          have hndcs := (List.nodup_cons.mp hndx).2
          revert hia hib
          cases hja : idxOf? a (Editor.visualIdsForest csA) with
          | none =>
            intro h1 h2
            exact Option.noConfusion h2
          | some ja =>
            cases hjb : idxOf? b (Editor.visualIdsForest csA) with
            | none =>
              intro h1 h2
              exact Option.noConfusion h1
            | some jb =>
              intro h1 h2
              simp at h1 h2
              rw [pathBefore]
              exact Or.inr ⟨rfl,
                pathBefore_of_idx a b csA (jA :: jsA) (jB :: jsB) ja jb
                  hndcs hja hjb (by omega) hfA hfB⟩
    · -- a inside x, b in the tail: paths 0-headed vs successor-headed
      obtain ⟨restA, rfl⟩ := findPathItem_shape a x 0 qa hA
      rw [pathBefore]
      exact Or.inl (by omega)
    · -- a in the tail, b inside x: contradicts the index order
      have hmemB := mem_of_findPathItem b x 0 qb hB
      have hnotA := (findPathItem_none_iff a x 0).mp hAn
      rw [idxOf?_append_left b _ _ hmemB] at hib
      rw [idxOf?_append_right a _ _ hnotA] at hia
      have hblt := idxOf?_lt_length b _ ib hib
      revert hia
      cases hja : idxOf? a (Editor.visualIdsForest xs) with
      | none => intro hia; exact Option.noConfusion hia
      | some ja =>
        intro hia
        simp at hia
        omega
    · -- both in the tail
      have hnotA := (findPathItem_none_iff a x 0).mp hAn
      have hnotB := (findPathItem_none_iff b x 0).mp hBn
      rw [idxOf?_append_right a _ _ hnotA] at hia
      rw [idxOf?_append_right b _ _ hnotB] at hib
      revert hia hib
      cases hja : idxOf? a (Editor.visualIdsForest xs) with
      | none =>
        intro h1 h2
        exact Option.noConfusion h1
      | some ja =>
        cases hjb : idxOf? b (Editor.visualIdsForest xs) with
        | none =>
          intro h1 h2
          exact Option.noConfusion h2
        | some jb =>
          intro h1 h2
          simp at h1 h2
          have hrec := pathBefore_of_idx a b xs (iA :: isA) (iB :: isB) ja jb
            hndxs hja hjb (by omega) hAxs hBxs
          rw [pathBefore] at hrec ⊢
          rcases hrec with hh | ⟨he, hin⟩
          · exact Or.inl (by omega)
          · exact Or.inr ⟨by omega, hin⟩

/-! Deleting never introduces new ids. -/

mutual

theorem mem_ids_deleteItemOne (tid a : String) :
    ∀ (x y : Item), Editor.deleteItemOne tid x = some y →
      a ∈ Editor.visualIdsItem y → a ∈ Editor.visualIdsItem x
  | .mk i t l none, y, hy, ha => by
    rw [Editor.deleteItemOne] at hy
    split at hy
    · exact Option.noConfusion hy
    · rw [← Option.some.inj hy] at ha
      exact ha
  | .mk i t l (some cs), y, hy, ha => by
    rw [Editor.deleteItemOne] at hy
    split at hy
    · exact Option.noConfusion hy
    · rw [← Option.some.inj hy] at ha
      rw [visualIdsItem_eq] at ha ⊢
      simp only [Option.getD_some] at ha ⊢
      rcases List.mem_cons.mp ha with h | h
      · exact List.mem_cons.mpr (Or.inl h)
      · exact List.mem_cons.mpr (Or.inr (mem_ids_deleteItemForest tid a cs h))

theorem mem_ids_deleteItemForest (tid a : String) :
    ∀ ts : List Item, a ∈ Editor.visualIdsForest (Editor.deleteItemForest tid ts) →
      a ∈ Editor.visualIdsForest ts
  | [], h => h
  | x :: xs, h => by
    rw [Editor.deleteItemForest] at h
    rw [Editor.visualIdsForest]
    revert h
    cases hy : Editor.deleteItemOne tid x with
    | none =>
      intro h
      exact List.mem_append.mpr (Or.inr (mem_ids_deleteItemForest tid a xs h))
    | some y =>
      intro h
      rw [Editor.visualIdsForest] at h
      rcases List.mem_append.mp h with h | h
      · exact List.mem_append.mpr (Or.inl (mem_ids_deleteItemOne tid a x y hy h))
      · exact List.mem_append.mpr (Or.inr (mem_ids_deleteItemForest tid a xs h))

end

/-! The merge rewrite: removing the target at its path and then rewriting
the previous item at its (pre-removal) path equals the by-id description
— delete the target by id, then rewrite the previous item by id — for
any two found paths with the second strictly before the first in
depth-first order, on a document with unique ids. -/

theorem merge_master (f : Item → Item) (tid pid : String) :
    ∀ (ts : List Item) (p q : List Nat),
      (Editor.visualIdsForest ts).Nodup →
      Editor.findPathForest tid ts 0 = some p →
      Editor.findPathForest pid ts 0 = some q →
      pathBefore q p →
      Editor.updateAtPath f (Editor.removeAtPath ts p) q =
        SpecModel.mapByIdForest f pid (Editor.deleteItemForest tid ts)
  | [], p, q, _, hp, _, _ => Option.noConfusion hp
  | x :: xs, p, q, hnd, hp, hq, hord => by
    rw [Editor.visualIdsForest] at hnd
    have hndx := List.Nodup.of_append_left hnd
    have hndxs := List.Nodup.of_append_right hnd
    have hdisj := List.disjoint_of_nodup_append hnd
    rcases findPathForest_cons_inv tid x xs p hp with hP | ⟨hPn, iP, isP, hPxs, rfl⟩
    · -- the target is inside the head item
      have hmemT := mem_of_findPathItem tid x 0 p hP
      have hT_not_xs : tid ∉ Editor.visualIdsForest xs := fun hm => hdisj hmemT hm
      rcases findPathForest_cons_inv pid x xs q hq with hQ | ⟨hQn, iQ, isQ, hQxs, rfl⟩
      · -- the previous item is inside the head item as well
        have hmemP := mem_of_findPathItem pid x 0 q hQ
        have hP_not_xs : pid ∉ Editor.visualIdsForest xs := fun hm => hdisj hmemP hm
        cases x with
        | mk i t l c =>
          rcases findPathItem_zero_inv tid i t l c p hP with ⟨hiT, rfl⟩ |
            ⟨hiT, csT, pT, hcT, hfT, rfl⟩
          · -- the head itself is the target: nothing can be before path [0]
            rcases findPathItem_zero_inv pid i t l c q hQ with ⟨hiQ, rfl⟩ |
              ⟨hiQ, csQ, pQ, hcQ, hfQ, rfl⟩
            · rw [pathBefore] at hord
              rcases hord with h | ⟨_, h⟩
              · omega
              · rw [pathBefore] at h
                exact absurd rfl h
            · obtain ⟨jQ, jsQ, rfl⟩ := findPathForest_shape pid csQ 0 pQ hfQ
              rw [pathBefore] at hord
              rcases hord with h | ⟨_, h⟩
              · omega
              · rw [pathBefore] at h
                exact h.elim
          · -- the target is strictly inside the head's children
            subst hcT
            obtain ⟨jT, jsT, rfl⟩ := findPathForest_shape tid csT 0 pT hfT
            have hndcs : (Editor.visualIdsForest csT).Nodup := by
              rw [visualIdsItem_eq] at hndx
              exact (List.nodup_cons.mp hndx).2
            have hdel1 : Editor.deleteItemForest tid (Item.mk i t l (some csT) :: xs) =
                Item.mk i t l (some (Editor.deleteItemForest tid csT)) ::
                  Editor.deleteItemForest tid xs := by
              rw [Editor.deleteItemForest, deleteItemOne_miss_some tid i t l csT hiT]
            rcases findPathItem_zero_inv pid i t l (some csT) q hQ with ⟨hiQ, rfl⟩ |
              ⟨hiQ, csQ, pQ, hcQ, hfQ, rfl⟩
            · -- the previous item is the head itself
              rw [hdel1, deleteItemForest_noop tid xs hT_not_xs,
                SpecModel.mapByIdForest,
                mapByIdItem_hit f pid i t l _ hiQ,
                mapByIdForest_noop f pid xs hP_not_xs,
                ← removeAtPath_eq_deleteById tid csT (jT :: jsT) hndcs hfT]
              rfl
            · -- both strictly inside the head's children
              have hcc : csQ = csT := Option.some.inj hcQ.symm
              subst hcc
              obtain ⟨jQ, jsQ, rfl⟩ := findPathForest_shape pid csQ 0 pQ hfQ
              have hord2 := pathBefore_zero_strip _ _ hord
              rw [hdel1, deleteItemForest_noop tid xs hT_not_xs,
                SpecModel.mapByIdForest,
                mapByIdItem_miss_some f pid i t l _ hiQ,
                mapByIdForest_noop f pid xs hP_not_xs,
                ← merge_master f tid pid csQ (jT :: jsT) (jQ :: jsQ) hndcs hfT hfQ hord2]
              rfl
      · -- previous item in the tail while the target is in the head:
        -- contradicts the depth-first order
        obtain ⟨restT, rfl⟩ := findPathItem_shape tid x 0 p hP
        rw [pathBefore] at hord
        rcases hord with h | ⟨h, _⟩ <;> omega
    · -- the target is in the tail
      have hnotT := (findPathItem_none_iff tid x 0).mp hPn
      have hdelx : Editor.deleteItemForest tid (x :: xs) =
          x :: Editor.deleteItemForest tid xs := by
        rw [Editor.deleteItemForest, deleteItemOne_noop tid x hnotT]
      have hdel : Editor.removeAtPath xs (iP :: isP) = Editor.deleteItemForest tid xs :=
        removeAtPath_eq_deleteById tid xs (iP :: isP) hndxs hPxs
      rcases findPathForest_cons_inv pid x xs q hq with hQ | ⟨hQn, iQ, isQ, hQxs, rfl⟩
      · -- the previous item is inside the head
        have hmemP := mem_of_findPathItem pid x 0 q hQ
        have hpid_not_xs : pid ∉ Editor.visualIdsForest xs := fun hm => hdisj hmemP hm
        have hpid_not_del : pid ∉ Editor.visualIdsForest (Editor.deleteItemForest tid xs) :=
          fun hm => hpid_not_xs (mem_ids_deleteItemForest tid pid xs hm)
        cases x with
        | mk i t l c =>
          rcases findPathItem_zero_inv pid i t l c q hQ with ⟨hiQ, rfl⟩ |
            ⟨hiQ, csQ, pQ, hcQ, hfQ, rfl⟩
          · rw [removeAtPath_cons_succ, hdelx, SpecModel.mapByIdForest,
              mapByIdItem_hit f pid i t l c hiQ,
              mapByIdForest_noop f pid _ hpid_not_del, ← hdel]
            rfl
          · subst hcQ
            obtain ⟨jQ, jsQ, rfl⟩ := findPathForest_shape pid csQ 0 pQ hfQ
            have hndcsQ : (Editor.visualIdsForest csQ).Nodup := by
              rw [visualIdsItem_eq] at hndx
              exact (List.nodup_cons.mp hndx).2
            rw [removeAtPath_cons_succ, hdelx, SpecModel.mapByIdForest,
              mapByIdItem_miss_some f pid i t l _ hiQ,
              mapByIdForest_noop f pid _ hpid_not_del, ← hdel,
              ← updateAtPath_eq_mapById f pid csQ (jQ :: jsQ) hndcsQ hfQ]
            rfl
      · -- both in the tail
        have hnotP := (findPathItem_none_iff pid x 0).mp hQn
        have hord2 := pathBefore_succ_down _ _ _ _ hord
        rw [removeAtPath_cons_succ, updateAtPath_cons_succ, hdelx,
          SpecModel.mapByIdForest, mapByIdItem_noop f pid x hnotP,
          merge_master f tid pid xs (iP :: isP) (iQ :: isQ) hndxs hPxs hQxs hord2]

/-! ## Claim C4

The Backspace merge-with-previous operation against the spec's contract. -/

/-- C4: on every document with globally unique ids, the merge-with-previous
operation equals the spec contract: locate the item immediately preceding
the target in depth-first visual order, append the target's text to its
text and the target's children after its existing children, and remove the
target node; and on any document at all, it returns the document unchanged
when no previous item exists in visual order. -/
theorem C4_merge_matches_spec :
    (∀ (items : List Item) (tid : String),
      (Editor.visualIdsForest items).Nodup →
      Editor.mergeWithPrevious items tid = SpecModel.mergeWithPreviousSpec items tid) ∧
    (∀ (items : List Item) (tid : String),
      Editor.prevInOrder (Editor.visualIdsForest items) tid = none →
      Editor.mergeWithPrevious items tid = items) := by
  constructor
  · intro items tid hnd
    rw [Editor.mergeWithPrevious, SpecModel.mergeWithPreviousSpec]
    cases hprev : Editor.prevInOrder (Editor.visualIdsForest items) tid with
    | none => rfl
    | some pid =>
      obtain ⟨ia, ib, hia, hib, hlt⟩ :=
        prevInOrder_idx (Editor.visualIdsForest items) tid pid hnd hprev
      have hmemT : tid ∈ Editor.visualIdsForest items := by
        by_contra hm
        rw [(idxOf?_eq_none_iff tid _).mpr hm] at hib
        exact Option.noConfusion hib
      have hmemP : pid ∈ Editor.visualIdsForest items := by
        by_contra hm
        rw [(idxOf?_eq_none_iff pid _).mpr hm] at hia
        exact Option.noConfusion hia
      cases hfT : Editor.findPathForest tid items 0 with
      | none => exact absurd ((findPathForest_none_iff tid items 0).mp hfT) (by
          intro hcon
          exact hcon hmemT)
      | some p =>
        cases hfP : Editor.findPathForest pid items 0 with
        | none => exact absurd ((findPathForest_none_iff pid items 0).mp hfP) (by
            intro hcon
            exact hcon hmemP)
        | some q =>
          obtain ⟨hgT, tgt, hfbT, _⟩ := getAtPath_eq_findById tid items p hfT
          obtain ⟨hgP, prv, hfbP, _⟩ := getAtPath_eq_findById pid items q hfP
          have hord := pathBefore_of_idx pid tid items q p ia ib hnd hia hib hlt hfP hfT
          simp only [Editor.findItemPath, hfT, hfP, hgT, hgP, hfbT, hfbP]
          exact merge_master (Editor.mergeInto tgt.text tgt.children) tid pid items
            p q hnd hfT hfP hord
  · intro items tid hprev
    rw [Editor.mergeWithPrevious]
    simp only [hprev]

/-- C4 witness: the refinement applied to a concrete document — merging
`"b"` (text `"Y"`, one child) into `"a"` (text `"X"`) — with the
unique-ids hypothesis discharged by evaluation, plus the no-previous
branch at the first item of the document. -/
theorem C4_merge_matches_spec_witness :
    Editor.mergeWithPrevious
        [.mk "a" "X" 0 none, .mk "b" "Y" 0 (some [.mk "c" "Z" 1 none])] "b" =
      SpecModel.mergeWithPreviousSpec
        [.mk "a" "X" 0 none, .mk "b" "Y" 0 (some [.mk "c" "Z" 1 none])] "b" ∧
    Editor.mergeWithPrevious [.mk "a" "X" 0 none] "a" = [.mk "a" "X" 0 none] :=
  ⟨C4_merge_matches_spec.1
      [.mk "a" "X" 0 none, .mk "b" "Y" 0 (some [.mk "c" "Z" 1 none])] "b" (by decide),
   C4_merge_matches_spec.2 [.mk "a" "X" 0 none] "a" rfl⟩

/-! ## Claim C5

Every mutation operation keeps all item levels in `[0, 5]`. -/

/-- C5: for every document whose levels all lie in `[0, 5]`, applying any
single mutation (update text, split, merge in either direction, indent or
outdent in either variant, move up/down, duplicate, delete) yields a
document whose levels all lie in `[0, 5]`; hence any sequence of such
operations preserves the invariant. -/
theorem C5_levels_stay_in_bounds :
    (∀ (items : List Item) (op : Op),
      levelsOkForest items → levelsOkForest (applyOp items op)) ∧
    (∀ (ops : List Op) (items : List Item),
      levelsOkForest items → levelsOkForest (ops.foldl applyOp items)) := by
  have h1 : ∀ (items : List Item) (op : Op),
      levelsOkForest items → levelsOkForest (applyOp items op) := by
    intro items op h
    cases op with
    | updateText tid s =>
      rw [applyOp, Editor.updateItem]
      exact levelsOk_updateItemForest tid _ (fun v hv => Option.noConfusion hv) items h
    | splitAt tid caret newId =>
      rw [applyOp]
      exact levelsOk_enterSplit items tid caret newId h
    | mergePrev tid =>
      rw [applyOp]
      exact levelsOk_mergeWithPrevious items tid h
    | mergeNext tid =>
      rw [applyOp]
      exact levelsOk_mergeWithNext items tid h
    | indentTab tid =>
      rw [applyOp]
      exact levelsOk_tabIndent items tid h
    | outdentTab tid =>
      rw [applyOp]
      exact levelsOk_shiftTabOutdent items tid h
    | indentStructural tid =>
      rw [applyOp]
      exact levelsOk_indentStructural items tid h
    | outdentStructural tid =>
      rw [applyOp]
      exact levelsOk_outdentStructural items tid h
    | moveUp tid =>
      rw [applyOp]
      exact levelsOk_moveItemUp items tid h
    | moveDown tid =>
      rw [applyOp]
      exact levelsOk_moveItemDown items tid h
    | duplicate tid freshId =>
      rw [applyOp]
      exact levelsOk_duplicateItem items tid freshId h
    | deleteSubtree tid =>
      rw [applyOp]
      exact levelsOk_deleteItem items tid h
  refine ⟨h1, ?_⟩
  intro ops
  induction ops with
  | nil => intro items h; exact h
  | cons op ops ih =>
    intro items h
    exact ih _ (h1 items op h)

/-- C5 witness: applying a Tab indent to a concrete in-bounds document
keeps its levels in bounds. -/
theorem C5_levels_stay_in_bounds_witness :
    levelsOkForest (applyOp [Item.mk "a" "hello" 0 none] (Op.indentTab "a")) :=
  C5_levels_stay_in_bounds.1 [Item.mk "a" "hello" 0 none] (Op.indentTab "a")
    (by norm_num [levelsOkForest, levelsOkItem])

/-! ## Claim C1

The spec asks of `duplicate(id)` that no id anywhere in the duplicated
subtree equal any id in the original subtree or elsewhere in the
document.  The source mints a fresh id only for the root of the clone;
`cloneItems` copies every descendant with its id unchanged, so
duplicating any item that has children leaves the document with repeated
ids. -/

/-- C1: evaluating `duplicateItem` at the failing input: duplicating
`"a"` (which has the child `"b"`) inserts a sibling whose child still has
id `"b"`, so `"b"` then occurs twice in the document's visual-order ids —
the duplicated subtree shares every descendant id with the original. -/
theorem C1_duplicate_reuses_descendant_ids :
    Editor.duplicateItem
        [.mk "a" "A" 0 (some [.mk "b" "B" 1 none])] "a" "dup-1" =
      [.mk "a" "A" 0 (some [.mk "b" "B" 1 none]),
       .mk "dup-1" "A" 0 (some [.mk "b" "B" 1 none])] ∧
    (Editor.visualIdsForest
        (Editor.duplicateItem
          [.mk "a" "A" 0 (some [.mk "b" "B" 1 none])] "a" "dup-1")).count "b" = 2 := by
  constructor
  · rfl
  · rfl

/-! ## Claim C2

The create-from-template branch of `GET /api/notes/:date` fills the new
note's `content` with `JSON.parse(JSON.stringify(template.content))`: a
structural deep clone that keeps every id, minting none. -/

/-- C2 counterexample: for the concrete template content
`[{id:"t1", ...}]`, the created note's content contains the id `"t1"`,
which is also an id of the template's own tree — contradicting the claim
that no id in the new note's tree equals an id in the template's tree. -/
theorem C2_counterexample :
    "t1" ∈ Editor.visualIdsForest
        (Persistence.createNoteContentFromTemplate [.mk "t1" "Inbox" 0 none]) ∧
    "t1" ∈ Editor.visualIdsForest [.mk "t1" "Inbox" 0 none] := by
  constructor
  · simp [Persistence.createNoteContentFromTemplate, Persistence.jsonCloneForest,
      Persistence.jsonCloneItem, Editor.visualIdsForest, Editor.visualIdsItem]
  · simp [Editor.visualIdsForest, Editor.visualIdsItem]

/-- C2 as amended: the initial content of a freshly created day's note is
a structural deep clone of the template's content that preserves every
node's id — the clone is equal to the template content, ids included, so
every id of the new note's tree is shared with the template's tree. -/
theorem C2_content_is_identical_clone (templateContent : List Item) :
    Persistence.createNoteContentFromTemplate templateContent = templateContent :=
  jsonCloneForest_eq templateContent

/-! ## Claim C10

The mutation engine's `deleteItem` has no minimum-item guard: deleting
the only root item yields the empty document.  The sole-item exception
lives only in `handleBlur`'s empty-item pruning. -/

/-- C10: deleting the single root item of a one-item document through
`deleteItem` produces the empty document (whatever its text, level or
children), while `handleBlur` never schedules a deletion when the
document holds exactly one item. -/
theorem C10_delete_has_no_sole_item_guard :
    (∀ (i t : String) (l : Int) (c : Option (List Item)),
      Editor.deleteItem [Item.mk i t l c] i = []) ∧
    (∀ y x : Item, Editor.blurSchedulesDeletion [y] x = false) := by
  constructor
  · intro i t l c
    cases c <;>
      simp [Editor.deleteItem, Editor.deleteItemForest, Editor.deleteItemOne]
  · intro y x
    simp [Editor.blurSchedulesDeletion]

/-! ## Claim C8

`set(newValue)` of `useHistory`. -/

/-- C8: recording a value structurally equal to `present` leaves the
history state unchanged, the redo stack included; recording a different
value sets `present` to it, clears `future`, and appends the old
`present` to `past` — dropping the oldest entry exactly when the stack
would exceed the cap, so `past` never grows beyond the cap. -/
theorem C8_record_semantics {α : Type} [DecidableEq α] (cap : Nat)
    (h : History.HistoryState α) (v : α) :
    (v = h.present → History.historySet cap false h v = h) ∧
    (v ≠ h.present →
      (History.historySet cap false h v).present = v ∧
      (History.historySet cap false h v).future = []) ∧
    (v ≠ h.present → h.past.length < cap →
      (History.historySet cap false h v).past = h.past ++ [h.present]) ∧
    (v ≠ h.present → 1 ≤ cap → cap ≤ h.past.length →
      (History.historySet cap false h v).past = h.past.tail ++ [h.present]) ∧
    (h.past.length ≤ cap → (History.historySet cap false h v).past.length ≤ cap) := by
  refine ⟨?_, ?_, ?_, ?_, ?_⟩
  · intro hv
    simp [History.historySet, hv]
  · intro hv
    simp [History.historySet, hv]
  · intro hv hlen
    simp [History.historySet, hv]
    omega
  · intro hv hc hlen
    cases hp : h.past with
    | nil =>
      rw [hp] at hlen
      simp at hlen
      omega
    | cons a as =>
      rw [hp] at hlen
      simp at hlen
      simp [History.historySet, hv, hp]
      omega
  · intro hlen
    by_cases hv : v = h.present
    · simp [History.historySet, hv, hlen]
    · simp [History.historySet, hv]
      split <;> simp <;> omega

/-- C8 witness: the branch facts of `C8_record_semantics` at concrete
inputs — a no-op record of the current present (future `[9]` kept), an
append without eviction, and an eviction at the cap. -/
theorem C8_record_semantics_witness :
    History.historySet 2 false (⟨[1], 2, [9]⟩ : History.HistoryState Nat) 2 =
        ⟨[1], 2, [9]⟩ ∧
    (History.historySet 2 false (⟨[1], 2, [9]⟩ : History.HistoryState Nat) 3).past =
        [1, 2] ∧
    (History.historySet 2 false (⟨[0, 1], 2, [9]⟩ : History.HistoryState Nat) 3).past =
        [1, 2] :=
  ⟨(C8_record_semantics 2 ⟨[1], 2, [9]⟩ 2).1 rfl,
   (C8_record_semantics 2 ⟨[1], 2, [9]⟩ 3).2.2.1 (by decide) (by decide),
   (C8_record_semantics 2 ⟨[0, 1], 2, [9]⟩ 3).2.2.2.1 (by decide) (by decide) (by decide)⟩

/-! ## Claim C9

Undo/redo round trip after a single recorded edit. -/

/-- C9: from a freshly reset history, recording one changed tree and
undoing reproduces the pre-edit tree as `present` (with the edit kept for
redo), redoing then reproduces the post-edit tree; undo with empty `past`
and redo with empty `future` change nothing. -/
theorem C9_undo_redo_round_trip {α : Type} [DecidableEq α] (cap : Nat)
    (t0 t1 : α) (hne : t1 ≠ t0) (hcap : 1 ≤ cap) :
    History.historyUndo (History.historySet cap false (History.historyReset t0) t1) =
        ⟨[], t0, [t1]⟩ ∧
    History.historyRedo
        (History.historyUndo
          (History.historySet cap false (History.historyReset t0) t1)) =
        ⟨[t0], t1, []⟩ ∧
    (∀ h : History.HistoryState α, h.past = [] → History.historyUndo h = h) ∧
    (∀ h : History.HistoryState α, h.future = [] → History.historyRedo h = h) := by
  have hset : History.historySet cap false (History.historyReset t0) t1 =
      ⟨[t0], t1, []⟩ := by
    simp [History.historySet, History.historyReset, hne]
    omega
  refine ⟨?_, ?_, ?_, ?_⟩
  · rw [hset]
    rfl
  · rw [hset]
    rfl
  · intro h hp
    simp [History.historyUndo, hp]
  · intro h hf
    simp [History.historyRedo, hf]

/-! ## Claim C7

`indentItem` rejects atomically: when the level shift
`prevSibling.level + 1 - target.level` would push any node of the
target's subtree outside `[0, 5]`, the operation returns the document
unchanged (no clamping, no structural change); it is likewise a no-op
when the target is first in its owning array. -/

/-- C7: with the target located at path `p` (last index `index`) in its
owning array `arr`, `prevSib` the sibling before it and `target` the item
itself: `indentItem` returns the document unchanged both when
`index = 0` and when shifting the subtree bounds by
`prevSib.level + 1 - target.level` would leave `[0, 5]`. -/
theorem C7_indent_atomic_rejection
    (items : List Item) (tid : String) (p : List Nat) (parentOpt : Option Item)
    (index : Nat) (arr : List Item) (prevSib target : Item)
    (hloc : Editor2.findItemLocation items tid = some (p, parentOpt))
    (hidx : p.getLast? = some index)
    (harr : Editor.arrayAtPath items p.dropLast = some arr)
    (hprev : arr[index - 1]? = some prevSib)
    (htgt : arr[index]? = some target) :
    (index = 0 → Editor2.indentItem items tid = items) ∧
    ((5 < (Editor2.boundsItem target).2 + (prevSib.level + 1 - target.level) ∨
        (Editor2.boundsItem target).1 + (prevSib.level + 1 - target.level) < 0) →
      Editor2.indentItem items tid = items) := by
  have hred : Editor2.indentItem items tid =
      (if index = 0 then items
       else
        let targetLevel := min (prevSib.level + 1) 5
        if targetLevel ≤ prevSib.level then items
        else
          let b := Editor2.boundsItem target
          let levelDelta := targetLevel - target.level
          if 5 < b.2 + levelDelta ∨ b.1 + levelDelta < 0 then items
          else
            let t1 := Editor.removeAtPath items p
            let moved :=
              if levelDelta = 0 then target else Editor2.adjustItem levelDelta target
            let t2 := Editor.updateAtPath (Editor2.pushChild moved) t1
              (p.dropLast ++ [index - 1])
            match parentOpt with
            | none => t2
            | some _ => Editor.updateAtPath Editor2.cleanupItem t2 p.dropLast) := by
    rw [Editor2.indentItem, cloneItems_eq]
    simp only [hloc, hidx, harr, hprev, htgt]
    cases parentOpt <;> rfl
  constructor
  · intro h0
    rw [hred, if_pos h0]
  · intro hbounds
    by_cases h0 : index = 0
    · rw [hred, if_pos h0]
    · rw [hred, if_neg h0]
      by_cases h5 : prevSib.level + 1 ≤ 5
      · rw [min_eq_left h5]
        rw [if_neg (by omega)]
        rw [if_pos hbounds]
      · rw [min_eq_right (by omega)]
        rw [if_pos (by omega)]

/-- C7 witness: indenting `"t"` under `"p"` would push the level-5 node
`"u"` of the target's subtree to level 6, and the document is returned
unchanged. -/
theorem C7_indent_atomic_rejection_witness :
    Editor2.indentItem
      [.mk "p" "" 0 none, .mk "t" "" 0 (some [.mk "u" "" 5 none])] "t" =
      [.mk "p" "" 0 none, .mk "t" "" 0 (some [.mk "u" "" 5 none])] :=
  (C7_indent_atomic_rejection
    [.mk "p" "" 0 none, .mk "t" "" 0 (some [.mk "u" "" 5 none])] "t"
    [1] none 1 [.mk "p" "" 0 none, .mk "t" "" 0 (some [.mk "u" "" 5 none])]
    (.mk "p" "" 0 none) (.mk "t" "" 0 (some [.mk "u" "" 5 none]))
    rfl rfl rfl rfl rfl).2 (by decide)

/-- C9 witness: the round trip at `t0 = 0`, `t1 = 1`, cap 100. -/
theorem C9_undo_redo_round_trip_witness :
    History.historyUndo
        (History.historySet 100 false (History.historyReset (0 : Nat)) 1) =
      ⟨[], 0, [1]⟩ :=
  (C9_undo_redo_round_trip 100 0 1 (by decide) (by decide)).1

/-! Composition lemmas for the path-descent operations: each of the four
steps of the structural `outdentItem` is a rewrite of the owning array
addressed by a path of arrays, and consecutive rewrites at the same path
fuse. -/

theorem modifyNth_congr {f g : α → α} (h : ∀ x, f x = g x) :
    ∀ (ts : List α) (i : Nat), modifyNth f ts i = modifyNth g ts i
  | [], _ => rfl
  | x :: xs, 0 => by rw [modifyNth, modifyNth, h]
  | x :: xs, i + 1 => by rw [modifyNth, modifyNth, modifyNth_congr h xs i]

theorem modifyNth_congr_at {f g : α → α} :
    ∀ (ts : List α) (i : Nat) (x : α), ts[i]? = some x → f x = g x →
      modifyNth f ts i = modifyNth g ts i
  | [], i, x, hx, _ => by simp at hx
  | y :: ys, 0, x, hx, h => by
    simp at hx
    rw [modifyNth, modifyNth, hx, h]
  | y :: ys, i + 1, x, hx, h => by
    simp at hx
    rw [modifyNth, modifyNth, modifyNth_congr_at ys i x hx h]

theorem modifyNth_modifyNth (f g : α → α) :
    ∀ (ts : List α) (i : Nat),
      modifyNth f (modifyNth g ts i) i = modifyNth (fun x => f (g x)) ts i
  | [], _ => rfl
  | x :: xs, 0 => by rw [modifyNth, modifyNth, modifyNth]
  | x :: xs, i + 1 => by
    rw [modifyNth, modifyNth, modifyNth, modifyNth_modifyNth f g xs i]

theorem childApply_congr {g g' : List Item → List Item} (x : Item)
    (h : ∀ cs, g cs = g' cs) : childApply g x = childApply g' x := by
  cases x with
  | mk i t l c => cases c with
    | none => rfl
    | some cs => rw [childApply, childApply, h]

theorem mapArrayAtPath_cons (g : List Item → List Item) (ts : List Item)
    (i : Nat) (is : List Nat) :
    Editor.mapArrayAtPath g ts (i :: is) =
      modifyNth (childApply (fun cs => Editor.mapArrayAtPath g cs is)) ts i := by
  rw [Editor.mapArrayAtPath]
  apply modifyNth_congr
  intro x
  cases x with
  | mk iv t l c => cases c <;> rfl

theorem removeAtPath_to_map : ∀ (q : List Nat) (ts : List Item) (k : Nat),
    Editor.removeAtPath ts (q ++ [k]) =
      Editor.mapArrayAtPath (fun arr => spliceRemove arr k) ts q
  | [], ts, k => rfl
  | i :: is, ts, k => by
    rw [mapArrayAtPath_cons]
    cases is with
    | nil =>
      rw [List.cons_append, List.nil_append, Editor.removeAtPath]
      apply modifyNth_congr
      intro x
      cases x with
      | mk iv t l c => cases c with
        | none => rfl
        | some cs =>
          show Item.mk iv t l (some (Editor.removeAtPath cs ([] ++ [k]))) = _
          rw [removeAtPath_to_map [] cs k]
          rfl
    | cons a as =>
      rw [List.cons_append, List.cons_append, Editor.removeAtPath]
      apply modifyNth_congr
      intro x
      cases x with
      | mk iv t l c => cases c with
        | none => rfl
        | some cs =>
          show Item.mk iv t l (some (Editor.removeAtPath cs ((a :: as) ++ [k]))) = _
          rw [removeAtPath_to_map (a :: as) cs k]
          rfl

theorem updateAtPath_to_map (f : Item → Item) :
    ∀ (q : List Nat) (ts : List Item) (k : Nat),
    Editor.updateAtPath f ts (q ++ [k]) =
      Editor.mapArrayAtPath (fun arr => modifyNth f arr k) ts q
  | [], ts, k => rfl
  | i :: is, ts, k => by
    rw [mapArrayAtPath_cons]
    cases is with
    | nil =>
      rw [List.cons_append, List.nil_append, Editor.updateAtPath]
      apply modifyNth_congr
      intro x
      cases x with
      | mk iv t l c => cases c with
        | none => rfl
        | some cs =>
          show Item.mk iv t l (some (Editor.updateAtPath f cs ([] ++ [k]))) = _
          rw [updateAtPath_to_map f [] cs k]
          rfl
    | cons a as =>
      rw [List.cons_append, List.cons_append, Editor.updateAtPath]
      apply modifyNth_congr
      intro x
      cases x with
      | mk iv t l c => cases c with
        | none => rfl
        | some cs =>
          show Item.mk iv t l (some (Editor.updateAtPath f cs ((a :: as) ++ [k]))) = _
          rw [updateAtPath_to_map f (a :: as) cs k]
          rfl

theorem insertAtArrayPath_to_map (v : Item) :
    ∀ (q : List Nat) (ts : List Item) (j : Nat),
    Editor2.insertAtArrayPath v ts q j =
      Editor.mapArrayAtPath (fun arr => spliceInsert v arr j) ts q
  | [], ts, j => rfl
  | i :: is, ts, j => by
    rw [mapArrayAtPath_cons, Editor2.insertAtArrayPath]
    apply modifyNth_congr
    intro x
    cases x with
    | mk iv t l c => cases c with
      | none => rfl
      | some cs =>
        show Item.mk iv t l (some (Editor2.insertAtArrayPath v cs is j)) = _
        rw [insertAtArrayPath_to_map v is cs j]
        rfl

theorem mapArrayAtPath_append (g : List Item → List Item) :
    ∀ (q : List Nat) (ts : List Item) (i : Nat),
    Editor.mapArrayAtPath g ts (q ++ [i]) =
      Editor.mapArrayAtPath (fun arr => modifyNth (childApply g) arr i) ts q
  | [], ts, i => by
    rw [List.nil_append, mapArrayAtPath_cons]
    show _ = modifyNth (childApply g) ts i
    apply modifyNth_congr
    intro x
    exact childApply_congr x (fun cs => rfl)
  | a :: as, ts, i => by
    rw [List.cons_append, mapArrayAtPath_cons, mapArrayAtPath_cons]
    apply modifyNth_congr
    intro x
    apply childApply_congr
    intro cs
    exact mapArrayAtPath_append g as cs i

theorem mapArrayAtPath_fuse (g h : List Item → List Item) :
    ∀ (q : List Nat) (ts : List Item),
    Editor.mapArrayAtPath g (Editor.mapArrayAtPath h ts q) q =
      Editor.mapArrayAtPath (fun arr => g (h arr)) ts q
  | [], ts => rfl
  | a :: as, ts => by
    rw [mapArrayAtPath_cons, mapArrayAtPath_cons, mapArrayAtPath_cons,
      modifyNth_modifyNth]
    apply modifyNth_congr
    intro x
    cases x with
    | mk iv t l c => cases c with
      | none => rfl
      | some cs =>
        show Item.mk iv t l
            (some (Editor.mapArrayAtPath g (Editor.mapArrayAtPath h cs as) as)) = _
        rw [mapArrayAtPath_fuse g h as cs]
        rfl

theorem mapArrayAtPath_congr_at {g g' : List Item → List Item} :
    ∀ (q : List Nat) (ts arr : List Item),
      Editor.arrayAtPath ts q = some arr → g arr = g' arr →
      Editor.mapArrayAtPath g ts q = Editor.mapArrayAtPath g' ts q
  | [], ts, arr, ha, h => by
    rw [Editor.arrayAtPath] at ha
    rw [Editor.mapArrayAtPath, Editor.mapArrayAtPath, Option.some.inj ha, h]
  | a :: as, ts, arr, ha, h => by
    rw [Editor.arrayAtPath] at ha
    revert ha
    cases hx : ts[a]? with
    | none => intro ha; exact Option.noConfusion ha
    | some x =>
      cases x with
      | mk iv t l c =>
        cases c with
        | none => intro ha; exact Option.noConfusion ha
        | some cs =>
          intro ha
          have ha2 : Editor.arrayAtPath cs as = some arr := ha
          rw [mapArrayAtPath_cons, mapArrayAtPath_cons]
          apply modifyNth_congr_at ts a _ hx
          rw [childApply, childApply, mapArrayAtPath_congr_at as cs arr ha2 h]

/-! The four fused steps as a single local rewrite of the parent's owning
array, and the facts about empty-children normal form and level bounds
that identify the local rewrite with the spec's outdent contract. -/

theorem chain4_local (f g : α → α) (u w : α) :
    ∀ (arr : List α) (pl : Nat) (x : α), arr[pl]? = some x →
      modifyNth g (modifyNth (fun _ => u)
          (spliceInsert w (modifyNth f arr pl) (pl + 1)) (pl + 1)) pl =
        spliceInsert u (modifyNth (fun y => g (f y)) arr pl) (pl + 1)
  | [], pl, x, hx => by simp at hx
  | a :: rest, 0, x, hx => by simp [modifyNth, spliceInsert]
  | a :: rest, pl + 1, x, hx => by
    simp only [List.getElem?_cons_succ] at hx
    exact congrArg (List.cons a) (chain4_local f g u w rest pl x hx)

theorem chain3_local (f g : α → α) (w : α) :
    ∀ (arr : List α) (pl : Nat) (x : α), arr[pl]? = some x →
      modifyNth g (spliceInsert w (modifyNth f arr pl) (pl + 1)) pl =
        spliceInsert w (modifyNth (fun y => g (f y)) arr pl) (pl + 1)
  | [], pl, x, hx => by simp at hx
  | a :: rest, 0, x, hx => by simp [modifyNth, spliceInsert]
  | a :: rest, pl + 1, x, hx => by
    simp only [List.getElem?_cons_succ] at hx
    exact congrArg (List.cons a) (chain3_local f g w rest pl x hx)

theorem getAtPath_nil : ∀ q : List Nat, Editor.getAtPath ([] : List Item) q = none
  | [] => rfl
  | [i] => by rw [Editor.getAtPath]; simp
  | i :: j :: js => by rw [Editor.getAtPath]; simp

theorem getAtPath_append_one : ∀ (q : List Nat) (ts : List Item) (i : Nat),
    Editor.getAtPath ts (q ++ [i]) =
      (Editor.arrayAtPath ts q).bind (fun arr => arr[i]?)
  | [], ts, i => by
    rw [List.nil_append]
    simp [Editor.getAtPath, Editor.arrayAtPath]
  | a :: as, ts, i => by
    rw [List.cons_append]
    cases as with
    | nil =>
      cases hx : ts[a]? with
      | none => simp [Editor.getAtPath, Editor.arrayAtPath, Item.children, hx]
      | some x =>
        cases x with
        | mk iv t l c =>
          cases c <;> simp [Editor.getAtPath, Editor.arrayAtPath, Item.children, hx]
    | cons b bs =>
      cases hx : ts[a]? with
      | none => simp [Editor.getAtPath, Editor.arrayAtPath, Item.children, hx]
      | some x =>
        cases x with
        | mk iv t l c =>
          cases c with
          | none => simp [Editor.getAtPath, Editor.arrayAtPath, Item.children, hx]
          | some cs =>
            have ih := getAtPath_append_one (b :: bs) cs i
            rw [List.cons_append] at ih
            simp [Editor.getAtPath, Editor.arrayAtPath, Item.children, hx, ih]

theorem arrayAtPath_append_one : ∀ (q : List Nat) (ts : List Item) (i : Nat),
    Editor.arrayAtPath ts (q ++ [i]) =
      (Editor.arrayAtPath ts q).bind (fun arr =>
        match arr[i]? with
        | some x => x.children
        | none => none)
  | [], ts, i => by
    rw [List.nil_append]
    cases hx : ts[i]? with
    | none => simp [Editor.arrayAtPath, Item.children, hx]
    | some x =>
      cases x with
      | mk iv t l c => cases c <;> simp [Editor.arrayAtPath, Item.children, hx]
  | a :: as, ts, i => by
    rw [List.cons_append]
    cases hx : ts[a]? with
    | none => simp [Editor.arrayAtPath, Item.children, hx]
    | some x =>
      cases x with
      | mk iv t l c =>
        cases c with
        | none => simp [Editor.arrayAtPath, Item.children, hx]
        | some cs => simp [Editor.arrayAtPath, Item.children, hx, arrayAtPath_append_one as cs i]

theorem noEmptyForest_cons {x : Item} {xs : List Item} :
    noEmptyForest (x :: xs) ↔ noEmptyItem x ∧ noEmptyForest xs := Iff.rfl

theorem noEmptyItem_children : ∀ x : Item, noEmptyItem x →
    ∀ cs, x.children = some cs → noEmptyForest cs
  | .mk i t l none, _, cs, hc => Option.noConfusion hc
  | .mk i t l (some cs₀), h, cs, hc => by
    have h2 : cs₀ ≠ [] ∧ noEmptyForest cs₀ := h
    have : cs₀ = cs := Option.some.inj hc
    exact this ▸ h2.2

mutual

theorem cleanupItem_id : ∀ x : Item, noEmptyItem x → Editor2.cleanupItem x = x
  | .mk i t l none, _ => rfl
  | .mk i t l (some cs), h => by
    have h2 : cs ≠ [] ∧ noEmptyForest cs := h
    rw [Editor2.cleanupItem, if_neg (fun hh => h2.1 (by simpa using hh)),
      cleanupForest_id cs h2.2]

theorem cleanupForest_id : ∀ xs : List Item,
    noEmptyForest xs → Editor2.cleanupForest xs = xs
  | [], _ => rfl
  | x :: xs, h => by
    have h2 : noEmptyItem x ∧ noEmptyForest xs := h
    rw [Editor2.cleanupForest, cleanupItem_id x h2.1, cleanupForest_id xs h2.2]

end

theorem noEmpty_spliceRemove : ∀ (xs : List Item) (n : Nat),
    noEmptyForest xs → noEmptyForest (spliceRemove xs n)
  | [], _, h => h
  | x :: xs, 0, h => (noEmptyForest_cons.mp h).2
  | x :: xs, n + 1, h => by
    have h2 := noEmptyForest_cons.mp h
    exact noEmptyForest_cons.mpr ⟨h2.1, noEmpty_spliceRemove xs n h2.2⟩

theorem noEmpty_get? : ∀ (ts : List Item) (i : Nat) (x : Item),
    noEmptyForest ts → ts[i]? = some x → noEmptyItem x
  | [], i, x, _, hx => by simp at hx
  | t :: ts, 0, x, h, hx => by
    simp at hx
    exact hx ▸ (noEmptyForest_cons.mp h).1
  | t :: ts, i + 1, x, h, hx => by
    simp at hx
    exact noEmpty_get? ts i x (noEmptyForest_cons.mp h).2 hx

theorem noEmpty_arrayAtPath : ∀ (p : List Nat) (ts arr : List Item),
    noEmptyForest ts → Editor.arrayAtPath ts p = some arr → noEmptyForest arr
  | [], ts, arr, h, ha => by
    rw [Editor.arrayAtPath] at ha
    exact (Option.some.inj ha) ▸ h
  | i :: is, ts, arr, h, ha => by
    rw [Editor.arrayAtPath] at ha
    revert ha
    cases hy : ts[i]? with
    | none => intro ha; exact Option.noConfusion ha
    | some y =>
      intro ha
      have ha2 : (match y.children with
          | some cs => Editor.arrayAtPath cs is
          | none => none) = some arr := ha
      revert ha2
      cases hcy : y.children with
      | none => intro ha2; exact Option.noConfusion ha2
      | some cs =>
        intro ha2
        exact noEmpty_arrayAtPath is cs arr
          (noEmptyItem_children y (noEmpty_get? ts i y h hy) cs hcy) ha2

/-! `getSubtreeLevelBounds` bounds every level of the subtree, so when the
shifted bounds stay inside `[0, 5]` the clamped shift of
`adjustSubtreeLevels` is the plain shift of the spec. -/

theorem boundsAux_fst_le : ∀ (cs : List Item) (acc : Int × Int),
    (Editor2.boundsAux acc cs).1 ≤ acc.1
  | [], acc => le_refl _
  | x :: xs, acc => by
    rw [Editor2.boundsAux]
    exact le_trans (boundsAux_fst_le xs _) (min_le_left _ _)

theorem boundsAux_snd_ge : ∀ (cs : List Item) (acc : Int × Int),
    acc.2 ≤ (Editor2.boundsAux acc cs).2
  | [], acc => le_refl _
  | x :: xs, acc => by
    rw [Editor2.boundsAux]
    exact le_trans (le_max_left _ _) (boundsAux_snd_ge xs _)

theorem boundsAux_child : ∀ (cs : List Item) (acc : Int × Int) (c : Item), c ∈ cs →
    (Editor2.boundsAux acc cs).1 ≤ (Editor2.boundsItem c).1 ∧
      (Editor2.boundsItem c).2 ≤ (Editor2.boundsAux acc cs).2
  | [], acc, c, hc => absurd hc (List.not_mem_nil c)
  | x :: xs, acc, c, hc => by
    rw [Editor2.boundsAux]
    rcases List.mem_cons.mp hc with h | h
    · subst h
      exact ⟨le_trans (boundsAux_fst_le xs _) (min_le_right _ _),
        le_trans (le_max_right _ _) (boundsAux_snd_ge xs _)⟩
    · exact boundsAux_child xs _ c h

mutual

theorem adjustItem_eq_shift (d : Int) : ∀ x : Item,
    0 ≤ (Editor2.boundsItem x).1 + d → (Editor2.boundsItem x).2 + d ≤ 5 →
    Editor2.adjustItem d x = SpecModel.shiftItemSpec d x
  | .mk i t l none, h0, h5 => by
    rw [Editor2.boundsItem] at h0 h5
    have h0l : 0 ≤ l + d := h0
    have h5l : l + d ≤ 5 := h5
    rw [Editor2.adjustItem, SpecModel.shiftItemSpec, max_eq_right h0l, min_eq_right h5l]
  | .mk i t l (some cs), h0, h5 => by
    rw [Editor2.boundsItem] at h0 h5
    have hf : (Editor2.boundsAux (l, l) cs).1 ≤ l := boundsAux_fst_le cs (l, l)
    have hs : l ≤ (Editor2.boundsAux (l, l) cs).2 := boundsAux_snd_ge cs (l, l)
    have h0l : 0 ≤ l + d := by omega
    have h5l : l + d ≤ 5 := by omega
    rw [Editor2.adjustItem, SpecModel.shiftItemSpec, max_eq_right h0l, min_eq_right h5l,
      adjustForest_eq_shift d cs (fun c hc => by
        have h2 := boundsAux_child cs (l, l) c hc
        exact ⟨by omega, by omega⟩)]

theorem adjustForest_eq_shift (d : Int) : ∀ cs : List Item,
    (∀ c ∈ cs, 0 ≤ (Editor2.boundsItem c).1 + d ∧ (Editor2.boundsItem c).2 + d ≤ 5) →
    Editor2.adjustForest d cs = SpecModel.shiftForestSpec d cs
  | [], _ => rfl
  | x :: xs, h => by
    rw [Editor2.adjustForest, SpecModel.shiftForestSpec,
      adjustItem_eq_shift d x (h x (List.mem_cons_self x xs)).1
        (h x (List.mem_cons_self x xs)).2,
      adjustForest_eq_shift d xs (fun c hc => h c (List.mem_cons_of_mem x hc))]

end

mutual

theorem shiftItemSpec_zero : ∀ x : Item, SpecModel.shiftItemSpec 0 x = x
  | .mk i t l none => by rw [SpecModel.shiftItemSpec, add_zero]
  | .mk i t l (some cs) => by
    rw [SpecModel.shiftItemSpec, add_zero, shiftForestSpec_zero cs]

theorem shiftForestSpec_zero : ∀ xs : List Item, SpecModel.shiftForestSpec 0 xs = xs
  | [] => rfl
  | x :: xs => by
    rw [SpecModel.shiftForestSpec, shiftItemSpec_zero x, shiftForestSpec_zero xs]

end

/-! With globally unique ids, `findItemPath` finds exactly the path of any
addressed node: the completeness direction of the search. -/

theorem id_mem_visualIdsItem : ∀ x : Item, x.id ∈ Editor.visualIdsItem x
  | .mk i t l none => by simp [Editor.visualIdsItem, Item.id]
  | .mk i t l (some cs) => by simp [Editor.visualIdsItem, Item.id]

theorem ids_mem_of_get? : ∀ (ts : List Item) (i : Nat) (x : Item) (a : String),
    ts[i]? = some x → a ∈ Editor.visualIdsItem x → a ∈ Editor.visualIdsForest ts
  | [], i, x, a, hx, _ => by simp at hx
  | t :: ts, 0, x, a, hx, ha => by
    simp at hx
    rw [Editor.visualIdsForest]
    exact List.mem_append.mpr (Or.inl (hx ▸ ha))
  | t :: ts, i + 1, x, a, hx, ha => by
    simp at hx
    rw [Editor.visualIdsForest]
    exact List.mem_append.mpr (Or.inr (ids_mem_of_get? ts i x a hx ha))

theorem ids_mem_of_getAtPath : ∀ (q : List Nat) (ts : List Item) (x : Item) (a : String),
    Editor.getAtPath ts q = some x → a ∈ Editor.visualIdsItem x →
    a ∈ Editor.visualIdsForest ts
  | [], ts, x, a, hx, _ => by rw [Editor.getAtPath] at hx; exact Option.noConfusion hx
  | [i], ts, x, a, hx, ha => ids_mem_of_get? ts i x a hx ha
  | i :: j :: js, ts, x, a, hx, ha => by
    rw [Editor.getAtPath] at hx
    revert hx
    cases hy : ts[i]? with
    | none => intro hx; exact Option.noConfusion hx
    | some y =>
      intro hx
      cases y with
      | mk yi yt yl yc =>
        cases yc with
        | none =>
          have hx2 : (none : Option Item) = some x := hx
          exact Option.noConfusion hx2
        | some cs =>
          have hx2 : Editor.getAtPath cs (j :: js) = some x := hx
          have hin : a ∈ Editor.visualIdsForest cs :=
            ids_mem_of_getAtPath (j :: js) cs x a hx2 ha
          have hy2 : a ∈ Editor.visualIdsItem (.mk yi yt yl (some cs)) := by
            rw [Editor.visualIdsItem]
            exact List.mem_cons_of_mem yi hin
          exact ids_mem_of_get? ts i _ a hy hy2

theorem findPath_complete : ∀ (q : List Nat) (ts : List Item) (y : Item),
    (Editor.visualIdsForest ts).Nodup → Editor.getAtPath ts q = some y →
    Editor.findPathForest y.id ts 0 = some q
  | [], ts, y => by
    intro _ hx
    rw [Editor.getAtPath] at hx
    exact Option.noConfusion hx
  | [i], ts, y => by
    induction ts generalizing i with
    | nil =>
      intro _ hx
      rw [getAtPath_nil] at hx
      exact Option.noConfusion hx
    | cons x xs ih =>
      intro hnd hx
      cases i with
      | zero =>
        rw [Editor.getAtPath] at hx
        simp at hx
        subst hx
        rw [Editor.findPathForest]
        cases x with
        | mk xi xt xl xc =>
          have hitem : Editor.findPathItem (Item.id (.mk xi xt xl xc))
              (.mk xi xt xl xc) 0 = some [0] := by
            cases xc <;> simp [Editor.findPathItem, Item.id]
          rw [hitem]
      | succ i =>
        rw [Editor.getAtPath] at hx
        simp at hx
        rw [Editor.findPathForest]
        have hni : Editor.findPathItem y.id x 0 = none := by
          rw [findPathItem_none_iff]
          intro hmem
          have h2 : y.id ∈ Editor.visualIdsForest xs :=
            ids_mem_of_get? xs i y y.id hx (id_mem_visualIdsItem y)
          rw [Editor.visualIdsForest] at hnd
          exact (List.disjoint_of_nodup_append hnd) hmem h2
        rw [hni, findPathForest_shift]
        have hnd2 : (Editor.visualIdsForest xs).Nodup := by
          rw [Editor.visualIdsForest] at hnd
          exact hnd.of_append_right
        rw [ih i hnd2 hx]
        rfl
  | i :: j :: js, ts, y => by
    induction ts generalizing i with
    | nil =>
      intro _ hx
      rw [getAtPath_nil] at hx
      exact Option.noConfusion hx
    | cons x xs ih =>
      intro hnd hx
      cases i with
      | zero =>
        cases x with
        | mk xi xt xl xc =>
          rw [Editor.getAtPath] at hx
          cases xc with
          | none =>
            simp only [List.getElem?_cons_zero, Item.children] at hx
            exact Option.noConfusion hx
          | some cs =>
            simp only [List.getElem?_cons_zero, Item.children] at hx
            have hx2 : Editor.getAtPath cs (j :: js) = some y := hx
            rw [Editor.visualIdsForest, Editor.visualIdsItem] at hnd
            have hndcs : (Editor.visualIdsForest cs).Nodup :=
              (hnd.of_append_left).of_cons
            have hyin : y.id ∈ Editor.visualIdsForest cs :=
              ids_mem_of_getAtPath (j :: js) cs y y.id hx2 (id_mem_visualIdsItem y)
            have hxiny : ¬ xi = y.id := by
              intro he
              exact (List.nodup_cons.mp hnd.of_append_left).1 (he ▸ hyin)
            have hcs0 : cs ≠ [] := by
              intro he
              subst he
              rw [getAtPath_nil] at hx2
              exact Option.noConfusion hx2
            have hrec := findPath_complete (j :: js) cs y hndcs hx2
            rw [Editor.findPathForest, Editor.findPathItem, if_neg hxiny,
              if_pos (List.length_pos.mpr hcs0), hrec]
            rfl
      | succ i =>
        rw [getAtPath_cons_succ] at hx
        rw [Editor.findPathForest]
        have hni : Editor.findPathItem y.id x 0 = none := by
          rw [findPathItem_none_iff]
          intro hmem
          have h2 : y.id ∈ Editor.visualIdsForest xs :=
            ids_mem_of_getAtPath (i :: j :: js) xs y y.id hx (id_mem_visualIdsItem y)
          rw [Editor.visualIdsForest] at hnd
          exact (List.disjoint_of_nodup_append hnd) hmem h2
        have hnd2 : (Editor.visualIdsForest xs).Nodup := by
          rw [Editor.visualIdsForest] at hnd
          exact hnd.of_append_right
        rw [hni, findPathForest_shift, ih i hnd2 hx]
        rfl

/-! `findItemLocation` against `findItemPath`: both searches visit the
document in the same order, so the paths agree, and the parent component
of `findItemLocation` is the node addressed by the path with its last
index removed. -/

theorem findLocItem_shift (tid : String) (x : Item) (n : Nat) (par : Option Item) :
    Editor2.findLocItem tid par x (n + 1) =
      Option.map (fun r => (headSucc r.1, r.2)) (Editor2.findLocItem tid par x n) := by
  cases x with
  | mk i t l c =>
    cases c with
    | none =>
      rw [Editor2.findLocItem, Editor2.findLocItem]
      by_cases hi : i = tid <;> simp [hi, headSucc]
    | some cs =>
      rw [Editor2.findLocItem, Editor2.findLocItem]
      by_cases hi : i = tid
      · simp [hi, headSucc]
      · simp only [if_neg hi]
        cases hq : Editor2.findLocForest tid (some (.mk i t l (some cs))) cs 0 with
        | none => simp
        | some r =>
          cases r with
          | mk p po => simp [headSucc]

theorem findLocForest_shift (tid : String) : ∀ (ts : List Item) (n : Nat) (par : Option Item),
    Editor2.findLocForest tid par ts (n + 1) =
      Option.map (fun r => (headSucc r.1, r.2)) (Editor2.findLocForest tid par ts n)
  | [], _, _ => rfl
  | x :: xs, n, par => by
    rw [Editor2.findLocForest, Editor2.findLocForest, findLocItem_shift]
    cases Editor2.findLocItem tid par x n with
    | some r => simp
    | none =>
      simp only [Option.map_none']
      exact findLocForest_shift tid xs (n + 1) par

mutual

theorem findLocItem_fst (tid : String) : ∀ (x : Item) (n : Nat) (par : Option Item),
    Option.map Prod.fst (Editor2.findLocItem tid par x n) = Editor.findPathItem tid x n
  | .mk i t l none, n, par => by
    rw [Editor2.findLocItem, Editor.findPathItem]
    by_cases hi : i = tid <;> simp [hi]
  | .mk i t l (some cs), n, par => by
    rw [Editor2.findLocItem, Editor.findPathItem]
    by_cases hi : i = tid
    · simp [hi]
    · simp only [if_neg hi]
      have hf := findLocForest_fst tid cs 0 (some (.mk i t l (some cs)))
      cases hq : Editor2.findLocForest tid (some (.mk i t l (some cs))) cs 0 with
      | none =>
        rw [hq] at hf
        simp only [Option.map_none'] at hf
        by_cases hcs : cs.length > 0
        · simp [hcs, ← hf]
        · simp [hcs]
      | some r =>
        rw [hq] at hf
        cases r with
        | mk p po =>
          simp only [Option.map_some'] at hf
          have hcs : cs.length > 0 := by
            cases cs with
            | nil => rw [Editor2.findLocForest] at hq; exact Option.noConfusion hq
            | cons c cs2 => simp
          simp [hcs, ← hf]

theorem findLocForest_fst (tid : String) : ∀ (ts : List Item) (n : Nat) (par : Option Item),
    Option.map Prod.fst (Editor2.findLocForest tid par ts n) = Editor.findPathForest tid ts n
  | [], _, _ => rfl
  | x :: xs, n, par => by
    rw [Editor2.findLocForest, Editor.findPathForest]
    have hi := findLocItem_fst tid x n par
    cases hx : Editor2.findLocItem tid par x n with
    | some r =>
      rw [hx] at hi
      simp only [Option.map_some'] at hi
      rw [← hi]
      rfl
    | none =>
      rw [hx] at hi
      simp only [Option.map_none'] at hi
      rw [← hi]
      exact findLocForest_fst tid xs (n + 1) par

end

mutual

theorem findLocItem_parent (tid : String) : ∀ (x : Item) (par : Option Item) (idx : Nat)
    (p : List Nat) (po : Option Item),
    Editor2.findLocItem tid par x idx = some (p, po) →
    (p = [idx] ∧ po = par) ∨
    (∃ cs q, x.children = some cs ∧ p = idx :: q ∧ q ≠ [] ∧
      (q.dropLast = [] → po = some x) ∧
      (q.dropLast ≠ [] → Editor.getAtPath cs q.dropLast = po))
  | .mk i t l none, par, idx, p, po, h => by
    rw [Editor2.findLocItem] at h
    split at h
    · have h2 := Option.some.inj h
      exact Or.inl ⟨(congrArg Prod.fst h2).symm, (congrArg Prod.snd h2).symm⟩
    · exact Option.noConfusion h
  | .mk i t l (some cs), par, idx, p, po, h => by
    rw [Editor2.findLocItem] at h
    split at h
    · have h2 := Option.some.inj h
      exact Or.inl ⟨(congrArg Prod.fst h2).symm, (congrArg Prod.snd h2).symm⟩
    · revert h
      cases hq : Editor2.findLocForest tid (some (.mk i t l (some cs))) cs 0 with
      | none => intro h; exact Option.noConfusion h
      | some r =>
        intro h
        cases r with
        | mk q po2 =>
          have h2 := Option.some.inj h
          have hp : p = idx :: q := (congrArg Prod.fst h2).symm
          have hpo : po = po2 := (congrArg Prod.snd h2).symm
          have hf := findLocForest_parent tid cs (some (.mk i t l (some cs))) q po2 hq
          refine Or.inr ⟨cs, q, rfl, hp, hf.1, ?_, ?_⟩
          · intro hd
            rw [hpo]
            exact hf.2.1 hd
          · intro hd
            rw [hpo]
            exact hf.2.2 hd

theorem findLocForest_parent (tid : String) : ∀ (ts : List Item) (par : Option Item)
    (p : List Nat) (po : Option Item),
    Editor2.findLocForest tid par ts 0 = some (p, po) →
    p ≠ [] ∧ (p.dropLast = [] → po = par) ∧
      (p.dropLast ≠ [] → Editor.getAtPath ts p.dropLast = po)
  | [], par, p, po, h => Option.noConfusion h
  | x :: xs, par, p, po, h => by
    rw [Editor2.findLocForest] at h
    revert h
    cases hx : Editor2.findLocItem tid par x 0 with
    | some r =>
      intro h
      have h2 : some r = some (p, po) := h
      rw [Option.some.inj h2] at hx
      rcases findLocItem_parent tid x par 0 p po hx with
        ⟨hp, hpo⟩ | ⟨cs, q, hcs, hp, hq0, hd1, hd2⟩
      · subst hp
        exact ⟨by simp, fun _ => hpo, fun hdd => absurd rfl hdd⟩
      · subst hp
        refine ⟨by simp, ?_, ?_⟩
        · intro hdd
          rw [List.dropLast_cons_of_ne_nil hq0] at hdd
          exact absurd hdd (List.cons_ne_nil _ _)
        · intro _
          rw [List.dropLast_cons_of_ne_nil hq0]
          cases hql : q.dropLast with
          | nil =>
            rw [getAtPath_cons_zero]
            exact (hd1 hql).symm
          | cons d ds =>
            rw [getAtPath_cons_zero_deep]
            have hg := hd2 (by rw [hql]; exact List.cons_ne_nil d ds)
            rw [hql] at hg
            rw [hcs]
            exact hg
    | none =>
      intro h
      rw [findLocForest_shift] at h
      revert h
      cases hq : Editor2.findLocForest tid par xs 0 with
      | none => intro h; exact Option.noConfusion h
      | some r =>
        intro h
        cases r with
        | mk p0 po0 =>
          have h2 : some (headSucc p0, po0) = some (p, po) := h
          have hp : p = headSucc p0 := (congrArg Prod.fst (Option.some.inj h2)).symm
          have hpo : po = po0 := (congrArg Prod.snd (Option.some.inj h2)).symm
          obtain ⟨hp0ne, hfd1, hfd2⟩ := findLocForest_parent tid xs par p0 po0 hq
          cases p0 with
          | nil => exact absurd rfl hp0ne
          | cons a rest =>
            have hps : p = (a + 1) :: rest := hp
            subst hps
            cases rest with
            | nil =>
              refine ⟨by simp, ?_, ?_⟩
              · intro _
                rw [hpo]
                exact hfd1 rfl
              · intro hdd
                exact absurd rfl hdd
            | cons b bs =>
              refine ⟨by simp, ?_, ?_⟩
              · intro hdd
                rw [List.dropLast_cons_of_ne_nil (List.cons_ne_nil b bs)] at hdd
                exact absurd hdd (List.cons_ne_nil _ _)
              · intro _
                rw [List.dropLast_cons_of_ne_nil (List.cons_ne_nil b bs),
                  getAtPath_cons_succ]
                have hne : (a :: b :: bs : List Nat).dropLast ≠ [] := by
                  rw [List.dropLast_cons_of_ne_nil (List.cons_ne_nil b bs)]
                  exact List.cons_ne_nil _ _
                have hg := hfd2 hne
                rw [List.dropLast_cons_of_ne_nil (List.cons_ne_nil b bs)] at hg
                rw [hpo]
                exact hg

end

/-- Unpacking `findItemLocation` when it reports a parent: the same path
is what `findItemPath` returns, it has length at least two, and the parent
is the node addressed by the path with its last index removed. -/
theorem findItemLocation_parent (items : List Item) (tid : String) (p : List Nat)
    (parent : Item) (h : Editor2.findItemLocation items tid = some (p, some parent)) :
    Editor.findPathForest tid items 0 = some p ∧
    p.dropLast ≠ [] ∧ Editor.getAtPath items p.dropLast = some parent := by
  rw [Editor2.findItemLocation] at h
  have hf := findLocForest_fst tid items 0 none
  rw [h] at hf
  simp only [Option.map_some'] at hf
  obtain ⟨hpne, hd1, hd2⟩ := findLocForest_parent tid items none p (some parent) h
  have hdd : p.dropLast ≠ [] := fun hdd => Option.noConfusion (hd1 hdd)
  exact ⟨hf.symm, hdd, hd2 hdd⟩

/-- C6: for every document with globally unique ids and no
present-but-empty children arrays, `outdentItem` on an item that has a
parent (located at the path `ppd ++ [pl]`, with the target the parent's
child at index `k`), when the shifted subtree stays in bounds, rewrites
the parent's owning array exactly as the spec's outdent contract says:
the target is removed from the parent's children (the children field
becoming absent when none remain) and reinserted immediately after the
parent with its subtree levels shifted by `parent.level - target.level`;
a target with no parent is a no-op; and the spec's concrete scenario
holds: on `[a [b], c]`, outdent of `"b"` yields `a` (childless), `b` at
level 0, then `c`. -/
theorem C6_outdent_matches_spec :
    (∀ (items : List Item) (tid : String) (ppd : List Nat) (pl k : Nat)
        (parent target : Item),
      (Editor.visualIdsForest items).Nodup →
      noEmptyForest items →
      Editor2.findItemLocation items tid = some (ppd ++ [pl, k], some parent) →
      Editor.getAtPath items (ppd ++ [pl]) = some parent →
      Editor.getAtPath items (ppd ++ [pl, k]) = some target →
      ¬ (5 < (Editor2.boundsItem target).2 + (parent.level - target.level) ∨
         (Editor2.boundsItem target).1 + (parent.level - target.level) < 0) →
      Editor2.outdentItem items tid =
        Editor.mapArrayAtPath
          (SpecModel.outdentLocalSpec (parent.level - target.level) target k pl)
          items ppd) ∧
    (∀ (items : List Item) (tid : String) (p : List Nat),
      Editor2.findItemLocation items tid = some (p, none) →
      Editor2.outdentItem items tid = items) ∧
    (Editor2.outdentItem
        [Item.mk "a" "X" 0 (some [Item.mk "b" "Y" 1 none]), Item.mk "c" "Z" 0 none]
        "b" =
      [Item.mk "a" "X" 0 none, Item.mk "b" "Y" 0 none, Item.mk "c" "Z" 0 none]) := by
  refine ⟨?gen, ?noparent, ?scenario⟩
  case noparent =>
    intro items tid p h
    rw [Editor2.outdentItem, cloneItems_eq]
    simp only [h]
  case scenario => rfl
  case gen =>
    intro items tid ppd pl k parent target hnd hne hloc hpar htgt hb
    have hassoc : (ppd ++ [pl, k] : List Nat) = (ppd ++ [pl]) ++ [k] := by simp
    have hcomp : Editor.findPathForest parent.id items 0 = some (ppd ++ [pl]) :=
      findPath_complete (ppd ++ [pl]) items parent hnd hpar
    have hfst := findLocForest_fst parent.id items 0 none
    rw [hcomp] at hfst
    have hpar2 := hpar
    rw [getAtPath_append_one] at hpar2
    revert hpar2
    cases harr : Editor.arrayAtPath items ppd with
    | none => intro hpar2; simp at hpar2
    | some arr0 =>
      intro hpar2
      simp only [Option.some_bind] at hpar2
      have htgt2 := htgt
      rw [hassoc, getAtPath_append_one, arrayAtPath_append_one, harr] at htgt2
      simp only [Option.some_bind, hpar2] at htgt2
      cases parent with
      | mk pi pt plv pc =>
        simp only [Item.children] at htgt2
        cases pc with
        | none => simp at htgt2
        | some cs =>
          simp only [Option.some_bind] at htgt2
          have hneArr : noEmptyForest arr0 := noEmpty_arrayAtPath ppd items arr0 hne harr
          have hnepar : noEmptyItem (Item.mk pi pt plv (some cs)) :=
            noEmpty_get? arr0 pl _ hneArr hpar2
          have hnecs : cs ≠ [] ∧ noEmptyForest cs := hnepar
          revert hfst
          cases hq : Editor2.findLocForest (Item.mk pi pt plv (some cs)).id
              none items 0 with
          | none => intro hfst; simp at hfst
          | some r =>
            intro hfst
            simp only [Option.map_some'] at hfst
            have hq2 : Editor2.findItemLocation items
                (Item.mk pi pt plv (some cs)).id = some r := by
              rw [Editor2.findItemLocation]
              exact hq
            cases r with
            | mk pp po2 =>
              have hpp : pp = ppd ++ [pl] := Option.some.inj hfst
              subst hpp
              rw [Editor2.outdentItem, cloneItems_eq]
              simp only [hloc, hq2, htgt]
              have hlast : (ppd ++ [pl] : List Nat).getLast? = some pl := by simp
              have hdrop : (ppd ++ [pl] : List Nat).dropLast = ppd := by simp
              simp only [hlast, hdrop]
              rw [if_neg hb]
              push_neg at hb
              have hshift : Editor2.adjustItem
                  ((Item.mk pi pt plv (some cs)).level - target.level) target =
                  SpecModel.shiftItemSpec
                    ((Item.mk pi pt plv (some cs)).level - target.level) target :=
                adjustItem_eq_shift _ target (by omega) (by omega)
              have hF1 : Editor2.cleanupItem
                  (childApply (fun cs2 => spliceRemove cs2 k)
                    (Item.mk pi pt plv (some cs))) =
                  SpecModel.dropChildAt (Item.mk pi pt plv (some cs)) k := by
                rw [childApply, Editor2.cleanupItem, SpecModel.dropChildAt]
                by_cases hemp : (spliceRemove cs k).isEmpty
                · rw [if_pos hemp, if_pos hemp]
                · rw [if_neg hemp, if_neg hemp,
                    cleanupForest_id _ (noEmpty_spliceRemove cs k hnecs.2)]
              by_cases hd0 : (Item.mk pi pt plv (some cs)).level - target.level = 0
              · rw [if_pos hd0]
                rw [hassoc, removeAtPath_to_map (ppd ++ [pl]) items k,
                  mapArrayAtPath_append _ ppd items pl,
                  insertAtArrayPath_to_map target ppd _ (pl + 1),
                  updateAtPath_to_map Editor2.cleanupItem ppd _ pl,
                  mapArrayAtPath_fuse, mapArrayAtPath_fuse]
                apply mapArrayAtPath_congr_at ppd items arr0 harr
                show modifyNth Editor2.cleanupItem
                    (spliceInsert target
                      (modifyNth (childApply (fun cs2 => spliceRemove cs2 k)) arr0 pl)
                      (pl + 1)) pl = _
                have hMN : modifyNth
                    (fun y => Editor2.cleanupItem
                      (childApply (fun cs2 => spliceRemove cs2 k) y)) arr0 pl =
                    modifyNth (fun par => SpecModel.dropChildAt par k) arr0 pl :=
                  modifyNth_congr_at arr0 pl _ hpar2 hF1
                rw [chain3_local _ _ _ arr0 pl _ hpar2, hMN,
                  SpecModel.outdentLocalSpec, hd0, shiftItemSpec_zero]
              · rw [if_neg hd0]
                rw [hassoc, removeAtPath_to_map (ppd ++ [pl]) items k,
                  mapArrayAtPath_append _ ppd items pl,
                  insertAtArrayPath_to_map target ppd _ (pl + 1),
                  updateAtPath_to_map
                    (fun _ => Editor2.adjustItem
                      ((Item.mk pi pt plv (some cs)).level - target.level) target)
                    ppd _ (pl + 1),
                  updateAtPath_to_map Editor2.cleanupItem ppd _ pl,
                  mapArrayAtPath_fuse, mapArrayAtPath_fuse, mapArrayAtPath_fuse]
                apply mapArrayAtPath_congr_at ppd items arr0 harr
                show modifyNth Editor2.cleanupItem
                    (modifyNth
                      (fun _ => Editor2.adjustItem
                        ((Item.mk pi pt plv (some cs)).level - target.level) target)
                      (spliceInsert target
                        (modifyNth (childApply (fun cs2 => spliceRemove cs2 k)) arr0 pl)
                        (pl + 1)) (pl + 1)) pl = _
                have hMN : modifyNth
                    (fun y => Editor2.cleanupItem
                      (childApply (fun cs2 => spliceRemove cs2 k) y)) arr0 pl =
                    modifyNth (fun par => SpecModel.dropChildAt par k) arr0 pl :=
                  modifyNth_congr_at arr0 pl _ hpar2 hF1
                rw [chain4_local _ _ _ _ arr0 pl _ hpar2, hMN,
                  hshift, SpecModel.outdentLocalSpec]

theorem C6_outdent_matches_spec_witness :
    Editor2.outdentItem
        [Item.mk "a" "X" 0 (some [Item.mk "b" "Y" 1 none]), Item.mk "c" "Z" 0 none]
        "b" =
      Editor.mapArrayAtPath
        (SpecModel.outdentLocalSpec
          ((Item.mk "a" "X" 0 (some [Item.mk "b" "Y" 1 none])).level -
            (Item.mk "b" "Y" 1 none).level)
          (Item.mk "b" "Y" 1 none) 0 0)
        [Item.mk "a" "X" 0 (some [Item.mk "b" "Y" 1 none]), Item.mk "c" "Z" 0 none]
        [] :=
  C6_outdent_matches_spec.1
    [Item.mk "a" "X" 0 (some [Item.mk "b" "Y" 1 none]), Item.mk "c" "Z" 0 none]
    "b" [] 0 0
    (Item.mk "a" "X" 0 (some [Item.mk "b" "Y" 1 none]))
    (Item.mk "b" "Y" 1 none)
    (by decide)
    (by simp [noEmptyForest, noEmptyItem])
    rfl rfl rfl (by decide)

end DailyFocus
